import Mathlib

/-!
Shallow embedding of the `RedisMemoryTool` class from `src/index.ts` of
`anthropic-redis-memory-tool`.

The Redis database (restricted to the string keys and values this module
uses) is modelled as a list of entries, each carrying the key, the stored
string value, and the expiration currently set on that key (`none` when the
key does not expire).  Redis primitives (`get`, `set`, `setex`, `exists`,
`del`, `expire`, `keys pattern`) are modelled directly on this list; the
`keys` patterns issued by the source are always of the shape
`literalPrefix*`, so the scan is modelled as a prefix filter.

JavaScript string operations used by the source (`split`, `replace` with a
string pattern — including the `$$`/`$&`/dollar-backquote/dollar-quote
replacement patterns of GetSubstitution —, `padStart`, `slice`,
`startsWith`, array `splice`/`slice`) are given explicit executable
definitions over `List Char`.

Each public handler (`view`, `create`, `str_replace`, `insert`, `delete`,
`rename`) is a pure function from a configuration and a store to the
updated store paired with `Except` of the thrown message or the returned
message.  A JavaScript `throw` always happens before any further store
mutation inside a handler, and the model returns the store as mutated so
far together with the error, so "state unchanged on failure" is a provable
statement, not an artifact of the encoding.
-/

set_option maxHeartbeats 1000000

namespace RedisMemoryTool

/-- Boolean list-prefix test, used to model JavaScript `String.startsWith`
and the literal-prefix key scans. -/
def pfxOfL : List Char → List Char → Bool
  | [], _ => true
  | _ :: _, [] => false
  | a :: as, b :: bs => a == b && pfxOfL as bs

/-- String form of `pfxOfL`: `hasPfx p s` models `s.startsWith(p)`. -/
def hasPfx (p s : String) : Bool := pfxOfL p.data s.data

/-- Length of a string as the number of its characters. -/
def strLen (s : String) : Nat := s.data.length

/-- Models JavaScript `s.slice(n)` for a non-negative index `n`. -/
def sliceFrom (s : String) (n : Nat) : String := String.mk (s.data.drop n)

/-- Models JavaScript `s.padStart(n, " ")`: left-pad with spaces to width
`n` (the string is returned unchanged when already at least that long). -/
def padLeft (s : String) (n : Nat) : String :=
  String.mk (List.replicate (n - strLen s) ' ') ++ s

/-- Splitting a character list on a non-empty separator `s0 :: sr`,
scanning left to right over non-overlapping occurrences; models
JavaScript `String.split` with a non-empty string separator. -/
def splitNE (s0 : Char) (sr : List Char) : List Char → List (List Char)
  | [] => [[]]
  | c :: rest =>
    if pfxOfL (s0 :: sr) (c :: rest) then
      [] :: splitNE s0 sr (rest.drop sr.length)
    else
      match splitNE s0 sr rest with
      | [] => [[c]]
      | h :: t => (c :: h) :: t
termination_by cs => cs.length
decreasing_by
  · simp only [List.length_drop, List.length_cons]
    omega
  · simp only [List.length_cons]
    omega

/-- Models JavaScript `String.split` for an arbitrary string separator:
the empty separator splits into single characters (and the empty string
splits into the empty array). -/
def jsSplitL (sep cs : List Char) : List (List Char) :=
  match sep with
  | [] => cs.map (fun c => [c])
  | s0 :: sr => splitNE s0 sr cs

/-- Interleaving a separator between list parts; models `Array.join`. -/
def intercalateL (sep : List Char) : List (List Char) → List Char
  | [] => []
  | [x] => x
  | x :: y :: rest => x ++ sep ++ intercalateL sep (y :: rest)

/-- GetSubstitution of ECMAScript for a string (capture-free) pattern:
expands `$$`, `$&`, dollar-backquote and dollar-quote in the replacement
text; any other use of `$` stays literal. `pre`/`matched`/`post` are the
text before the match, the match, and the text after the match. -/
def substL (pre matched post : List Char) : List Char → List Char
  | [] => []
  | c :: rest =>
    if c = '$' then
      match rest with
      | [] => ['$']
      | d :: rest2 =>
        if d = '$' then '$' :: substL pre matched post rest2
        else if d = '&' then matched ++ substL pre matched post rest2
        else if d = Char.ofNat 96 then pre ++ substL pre matched post rest2
        else if d = Char.ofNat 39 then post ++ substL pre matched post rest2
        else '$' :: d :: substL pre matched post rest2
    else c :: substL pre matched post rest
termination_by cs => cs.length
decreasing_by
  · simp only [List.length_cons]; omega
  · simp only [List.length_cons]; omega
  · simp only [List.length_cons]; omega
  · simp only [List.length_cons]; omega
  · simp only [List.length_cons]; omega
  · simp only [List.length_cons]; omega

/-- Models JavaScript `content.replace(old, new)` with a string pattern:
replaces the first occurrence, expanding replacement patterns via
`substL`; the content is returned unchanged when `old` does not occur. -/
def jsReplaceL (cs o n : List Char) : List Char :=
  match o with
  | [] => substL [] [] cs n ++ cs
  | o0 :: or =>
    match splitNE o0 or cs with
    | [] => cs
    | [_] => cs
    | p0 :: p1 :: rest =>
      let post := intercalateL (o0 :: or) (p1 :: rest)
      p0 ++ substL p0 (o0 :: or) post n ++ post

/-- String wrapper of `jsReplaceL`. -/
def jsReplace (content o n : String) : String :=
  String.mk (jsReplaceL content.data o.data n.data)

/-- Lines of a content string: JavaScript `content.split("\n")`. -/
def linesOf (content : String) : List String :=
  (splitNE '\n' [] content.data).map String.mk

/-- Join a list of strings with a separator (JavaScript `Array.join`). -/
def joinWith (sep : String) (ls : List String) : String :=
  String.mk (intercalateL sep.data (ls.map String.data))

/-- Models JavaScript `Array.slice(start, end)` with possibly negative
indices (negative indices count from the end, and the result is the empty
list when the clamped end does not exceed the clamped start). -/
def jsSliceL (l : List String) (start endI : Int) : List String :=
  let len : Int := l.length
  let s := if start < 0 then max (len + start) 0 else min start len
  let e := if endI < 0 then max (len + endI) 0 else min endI len
  (l.take e.toNat).drop s.toNat

/-- A stored Redis entry: the exact key, the stored string value, and the
expiration currently set on the key (`none` when the key has no TTL). -/
structure Entry where
  key : String
  val : String
  ttl : Option Nat
  deriving Repr, DecidableEq

/-- The Redis database as seen by this module. -/
abbrev Store := List Entry

/-- First entry stored under a key. -/
def lookup (s : Store) (k : String) : Option Entry :=
  s.find? (fun e => e.key == k)

/-- Models `redis.get(key)` (string value or `null`). -/
def redisGet (s : Store) (k : String) : Option String :=
  (lookup s k).map (fun e => e.val)

/-- Models the truthiness of `redis.exists(key)` for a single key. -/
def redisExists (s : Store) (k : String) : Bool :=
  (lookup s k).isSome

/-- Removes every entry stored under a key. -/
def eraseKey (s : Store) (k : String) : Store :=
  s.filter (fun e => e.key != k)

/-- Models `redis.set(key, value)`: overwrites the key and clears any
expiration (Redis `SET` discards the TTL of an existing key). -/
def redisSet (s : Store) (k v : String) : Store :=
  eraseKey s k ++ [⟨k, v, none⟩]

/-- Models `redis.setex(key, ttl, value)`. -/
def redisSetex (s : Store) (k : String) (t : Nat) (v : String) : Store :=
  eraseKey s k ++ [⟨k, v, some t⟩]

/-- Models `redis.expire(key, ttl)` (no effect on a missing key). -/
def redisExpire (s : Store) (k : String) (t : Nat) : Store :=
  s.map (fun e => if e.key == k then { e with ttl := some t } else e)

/-- Models `redis.del(key)` for a single key. -/
def redisDel (s : Store) (k : String) : Store := eraseKey s k

/-- Models the variadic `redis.del(...keys)`. -/
def redisDelBatch (s : Store) (ks : List String) : Store :=
  s.filter (fun e => !(ks.contains e.key))

/-- Models `redis.keys(prefix + "*")`: every key of the store that starts
with the literal prefix, in store order. -/
def redisKeysPrefix (s : Store) (pfx : String) : List String :=
  (s.filter (fun e => hasPfx pfx e.key)).map (fun e => e.key)

/-- Construction-time configuration of `RedisMemoryTool`: the composed key
prefix and the optional TTL in seconds. -/
structure Config where
  keyPrefix : String
  ttl : Option Nat

/-- The constructor's key-prefix composition: `base:agentContext` when an
agent context is configured, else just the base (default `"memory"`). -/
def buildKeyPrefix (keyPrefix? agentContext? : Option String) : String :=
  let base := keyPrefix?.getD "memory"
  match agentContext? with
  | some ctx => base ++ ":" ++ ctx
  | none => base

/-- The expiration that a write through `setWithTtl` leaves on the written
key: the configured TTL when it is set and non-zero (JavaScript truthiness
of `this.ttl`), else no expiration. -/
def ttlMark (cfg : Config) : Option Nat :=
  match cfg.ttl with
  | some t => if t = 0 then none else some t
  | none => none

/-- The private `setWithTtl(key, value)` helper: `setex` when a (truthy)
TTL is configured, plain `set` otherwise. -/
def setWithTtl (cfg : Config) (s : Store) (k v : String) : Store :=
  match cfg.ttl with
  | some t => if t = 0 then redisSet s k v else redisSetex s k t v
  | none => redisSet s k v

/-- The private `refreshTtl(key)` helper: `expire` when a (truthy) TTL is
configured, no-op otherwise. -/
def refreshTtl (cfg : Config) (s : Store) (k : String) : Store :=
  match cfg.ttl with
  | some t => if t = 0 then s else redisExpire s k t
  | none => s

/-- Collapse of every run of repeated `/` to a single `/`; models the
JavaScript global regex replace of one-or-more slashes by one slash. The
boolean records whether the previously emitted character was a slash. -/
def collapseAux : Bool → List Char → List Char
  | _, [] => []
  | prev, c :: rest =>
    if c = '/' then
      if prev then collapseAux true rest else '/' :: collapseAux true rest
    else c :: collapseAux false rest

/-- Removal of one trailing `/` when present; models the JavaScript
replace of a final slash by the empty string. -/
def stripLastSlash (cs : List Char) : List Char :=
  match cs.getLast? with
  | some c => if c = '/' then cs.dropLast else cs
  | none => cs

/-- The path normalization performed inside `pathToKey`: collapse repeated
separators, then strip one trailing separator. -/
def normalizePath (p : String) : String :=
  String.mk (stripLastSlash (collapseAux false p.data))

/-- The private `pathToKey(memoryPath)`: fails unless the path starts with
the literal `/memories`, then returns `keyPrefix + ":" + normalized`. -/
def pathToKey (cfg : Config) (p : String) : Except String String :=
  if hasPfx "/memories" p then
    .ok (cfg.keyPrefix ++ ":" ++ normalizePath p)
  else
    .error ("Path must start with /memories, got: " ++ p)

/-- The private `keyToPath(key)`: strips the prefix and the colon. -/
def keyToPath (cfg : Config) (k : String) : String :=
  sliceFrom k (strLen cfg.keyPrefix + 1)

/-- The private `isFile(memoryPath)` probe: the encoded key exists. The
callers inside directory listing only ever pass paths rooted under
`/memories`, for which `pathToKey` cannot fail; a failing encode is mapped
to `false` here. -/
def isFile (cfg : Config) (s : Store) (p : String) : Bool :=
  match pathToKey cfg p with
  | .ok k => redisExists s k
  | .error _ => false

/-- First segment of a relative path: JavaScript `rel.split("/")[0]`. -/
def segHead (cs : List Char) : List Char :=
  match jsSplitL ['/'] cs with
  | [] => []
  | h :: _ => h

/-- Insertion-ordered deduplication, as performed by a JavaScript `Set`. -/
def insertUnique (acc : List String) (x : String) : List String :=
  if acc.contains x then acc else acc ++ [x]

/-- Boolean string order used to model the default `Array.sort`. -/
def strLe (a b : String) : Bool := a == b || decide (a < b)

/-- Insertion into a sorted list of strings. -/
def insertSorted (x : String) : List String → List String
  | [] => [x]
  | y :: rest => if strLe x y then x :: y :: rest else y :: insertSorted x rest

/-- Lexicographic insertion sort, modelling `Array.from(set).sort()`. -/
def sortStrs : List String → List String
  | [] => []
  | x :: rest => insertSorted x (sortStrs rest)

/-- Direct-children extraction shared by the two directory-listing
branches of `view`: for every scanned key under `dirKey + "/"`, take the
first path segment after the prefix, classify it as file or directory by
an exact-key existence probe, deduplicate preserving insertion order, and
sort; directories are displayed with a trailing separator. -/
def listChildren (cfg : Config) (s : Store) (p : String) (dirKey : String)
    (ks : List String) : List String :=
  let names := ks.foldl (fun acc k =>
    if hasPfx (dirKey ++ "/") k then
      let rel := sliceFrom k (strLen dirKey + 1)
      let seg := String.mk (segHead rel.data)
      if seg = "" then acc
      else
        let isF := isFile cfg s (p ++ "/" ++ seg)
        insertUnique acc (if isF then seg else seg ++ "/")
    else acc) []
  sortStrs names

/-- Rendering of retained lines: each line is prefixed by its line number
left-padded with spaces to 4 columns, then a colon and a space. -/
def renderNumbered (startNum : Nat) (ls : List String) : List String :=
  ls.enum.map (fun pr => padLeft (toString (pr.1 + startNum)) 4 ++ ": " ++ pr.2)

/-- The `view` handler. The optional range is modelled as the optional
`view_range` array; only a two-element array triggers slicing, exactly as
in the source. -/
def view (cfg : Config) (s : Store) (p : String) (range : Option (List Int)) :
    Store × Except String String :=
  if p = "/memories" then
    let ks := redisKeysPrefix s (cfg.keyPrefix ++ ":/memories/")
    if ks.isEmpty then
      (s, .ok "Directory: /memories\n(empty)")
    else
      let items := listChildren cfg s p (cfg.keyPrefix ++ ":/memories") ks
      (s, .ok ("Directory: /memories\n" ++
        joinWith "\n" (items.map (fun it => "- " ++ it))))
  else
    match pathToKey cfg p with
    | .error e => (s, .error e)
    | .ok key =>
      match redisGet s key with
      | some content =>
        let s1 := refreshTtl cfg s key
        let lines := linesOf content
        let sliced : List String × Nat :=
          match range with
          | some [a, b] =>
            let startLine : Int := max 1 a - 1
            let endLine : Int := if b = -1 then (lines.length : Int) else b
            (jsSliceL lines startLine endLine, startLine.toNat + 1)
          | _ => (lines, 1)
        (s1, .ok (joinWith "\n" (renderNumbered sliced.2 sliced.1)))
      | none =>
        let ks := redisKeysPrefix s (key ++ "/")
        if ks.isEmpty then (s, .error ("Path not found: " ++ p))
        else
          (s, .ok ("Directory: " ++ p ++ "\n" ++
            joinWith "\n" ((listChildren cfg s p key ks).map (fun it => "- " ++ it))))

/-- The `create` handler. -/
def create (cfg : Config) (s : Store) (p text : String) :
    Store × Except String String :=
  match pathToKey cfg p with
  | .error e => (s, .error e)
  | .ok key =>
    if redisExists s key then
      (s, .error ("File already exists: " ++ p))
    else
      (setWithTtl cfg s key text, .ok ("File created successfully at " ++ p))

/-- The occurrence count computed by `str_replace`:
`content.split(old_str).length - 1`, as a (possibly negative) integer. -/
def strReplaceCount (content o : String) : Int :=
  (jsSplitL o.data content.data).length - 1

/-- The `str_replace` handler. -/
def str_replace (cfg : Config) (s : Store) (p o n : String) :
    Store × Except String String :=
  match pathToKey cfg p with
  | .error e => (s, .error e)
  | .ok key =>
    match redisGet s key with
    | none => (s, .error ("File not found: " ++ p))
    | some content =>
      let count := strReplaceCount content o
      if count = 0 then
        (s, .error ("Text not found in " ++ p))
      else if count > 1 then
        (s, .error ("Text appears " ++ toString count ++ " times in " ++ p ++
          ". Must be unique."))
      else
        (setWithTtl cfg s key (jsReplace content o n),
          .ok ("File " ++ p ++ " has been edited"))

/-- Stripping of one trailing newline from the inserted text (JavaScript
replace of a final newline by the empty string). -/
def stripTrailingNl (t : String) : String :=
  match t.data.getLast? with
  | some c => if c = '\n' then String.mk t.data.dropLast else t
  | none => t

/-- The `insert` handler; the requested line index is an integer and may
be negative. -/
def insert (cfg : Config) (s : Store) (p : String) (insertLine : Int)
    (text : String) : Store × Except String String :=
  match pathToKey cfg p with
  | .error e => (s, .error e)
  | .ok key =>
    match redisGet s key with
    | none => (s, .error ("File not found: " ++ p))
    | some content =>
      let lines := linesOf content
      if insertLine < 0 || insertLine > (lines.length : Int) then
        (s, .error ("Invalid insert_line " ++ toString insertLine ++
          ". Must be 0-" ++ toString lines.length))
      else
        let newLines := lines.take insertLine.toNat ++ [stripTrailingNl text] ++
          lines.drop insertLine.toNat
        (setWithTtl cfg s key (joinWith "\n" newLines),
          .ok ("Text inserted at line " ++ toString insertLine ++ " in " ++ p))

/-- The `delete` handler. -/
def delete (cfg : Config) (s : Store) (p : String) :
    Store × Except String String :=
  if p = "/memories" then
    (s, .error "Cannot delete the /memories directory itself")
  else
    match pathToKey cfg p with
    | .error e => (s, .error e)
    | .ok key =>
      if redisExists s key then
        (redisDel s key, .ok ("File deleted: " ++ p))
      else
        let ks := redisKeysPrefix s (key ++ "/")
        if ks.isEmpty then (s, .error ("Path not found: " ++ p))
        else (redisDelBatch s ks, .ok ("Directory deleted: " ++ p))

/-- The pre-flight loop of the directory branch of `rename`: the relative
path of the first scanned key whose mapped destination key exists. -/
def renameConflict (s : Store) (oldKey newKey : String) :
    List String → Option String
  | [] => none
  | k :: rest =>
    let rel := sliceFrom k (strLen oldKey)
    if redisExists s (newKey ++ rel) then some rel
    else renameConflict s oldKey newKey rest

/-- The execution loop of the directory branch of `rename`: one scanned
key at a time, read the content, write it at the mapped destination (with
TTL) and delete the source. -/
def renameMove (cfg : Config) (oldKey newKey : String) :
    List String → Store → Store
  | [], s => s
  | k :: rest, s =>
    match redisGet s k with
    | some v =>
      let rel := sliceFrom k (strLen oldKey)
      renameMove cfg oldKey newKey rest (redisDel (setWithTtl cfg s (newKey ++ rel) v) k)
    | none => renameMove cfg oldKey newKey rest s

/-- The `rename` handler. -/
def rename (cfg : Config) (s : Store) (oldPath newPath : String) :
    Store × Except String String :=
  match pathToKey cfg oldPath with
  | .error e => (s, .error e)
  | .ok oldKey =>
    match pathToKey cfg newPath with
    | .error e => (s, .error e)
    | .ok newKey =>
      match redisGet s oldKey with
      | some content =>
        if redisExists s newKey then
          (s, .error ("Destination already exists: " ++ newPath))
        else
          (redisDel (setWithTtl cfg s newKey content) oldKey,
            .ok ("Renamed " ++ oldPath ++ " to " ++ newPath))
      | none =>
        let ks := redisKeysPrefix s (oldKey ++ "/")
        if ks.isEmpty then
          (s, .error ("Source path not found: " ++ oldPath))
        else
          match renameConflict s oldKey newKey ks with
          | some rel =>
            (s, .error ("Destination already exists: " ++ newPath ++ rel))
          | none =>
            (renameMove cfg oldKey newKey ks s,
              .ok ("Renamed " ++ oldPath ++ " to " ++ newPath))

/-- The `clearAll` utility. -/
def clearAll (cfg : Config) (s : Store) : Store :=
  let ks := redisKeysPrefix s (cfg.keyPrefix ++ ":/memories/")
  if ks.isEmpty then s else redisDelBatch s ks

/-- The classification of a path by the directory resolver, as the code's
own checks perform it everywhere: a file when a key exists at exactly the
encoded path, else a directory when the subtree scan is non-empty, else
absent; an invalid path propagates the encode error. -/
inductive PathKind
  | File
  | Directory
  | Absent
  deriving DecidableEq, Repr

/-- Classify a path against a store (see `PathKind`). -/
def classify (cfg : Config) (s : Store) (p : String) : Except String PathKind :=
  match pathToKey cfg p with
  | .error e => .error e
  | .ok key =>
    if redisExists s key then .ok .File
    else if !(redisKeysPrefix s (key ++ "/")).isEmpty then .ok .Directory
    else .ok .Absent

/-- Well-formedness of a store: pairwise distinct keys. Every store
reachable through the handlers keeps this invariant. -/
def StoreWF (s : Store) : Prop :=
  s.Pairwise (fun a b => a.key ≠ b.key)

/-- Number of non-overlapping occurrences of the non-empty pattern
`p0 :: pr`, scanning greedily left to right — the standard reading of
"counts the non-overlapping occurrences" in the specification. -/
def countOccs (p0 : Char) (pr : List Char) : List Char → Nat
  | [] => 0
  | c :: rest =>
    if pfxOfL (p0 :: pr) (c :: rest) then
      countOccs p0 pr (rest.drop pr.length) + 1
    else countOccs p0 pr rest
termination_by cs => cs.length
decreasing_by
  · simp only [List.length_drop, List.length_cons]
    omega
  · simp only [List.length_cons]
    omega

/-- Independent one-pass characterization of slash collapsing: a slash is
dropped exactly when the text to its right already begins with a slash,
so every run of repeated separators keeps exactly one. -/
def collapseSpec (cs : List Char) : List Char :=
  cs.foldr (fun c acc => if c = '/' ∧ acc.head? = some '/' then acc else c :: acc) []

/-- Absence of adjacent repeated separators. -/
def noDupSlash : List Char → Bool
  | [] => true
  | [_] => true
  | a :: b :: rest => !(a = '/' && b = '/') && noDupSlash (b :: rest)

/-- The destination key that the directory branch of `rename` maps a
scanned source key to: the new key followed by the source key's relative
part. -/
def mappedDest (oldKey newKey k : String) : String :=
  newKey ++ sliceFrom k (strLen oldKey)

/-- The rendering that the specification's words "right-padded to 4
columns" literally describe: the line number padded on its right (i.e.
left-aligned) to width 4. -/
def padRight (s : String) (n : Nat) : String :=
  s ++ String.mk (List.replicate (n - strLen s) ' ')

/-- Full no-range rendering of a text, as `view` produces for a file. -/
def renderAll (t : String) : String :=
  joinWith "\n" (renderNumbered 1 (linesOf t))

/-! Basic facts about strings and the boolean prefix test. -/

theorem strext {a b : String} (h : a.data = b.data) : a = b := by
  cases a
  cases b
  cases h
  rfl

theorem pfxOfL_iff (p : List Char) : ∀ l, pfxOfL p l = true ↔ ∃ t, l = p ++ t := by
  induction p with
  | nil =>
    intro l
    simp [pfxOfL]
  | cons a as ih =>
    intro l
    cases l with
    | nil =>
      simp [pfxOfL]
    | cons b bs =>
      simp only [pfxOfL, Bool.and_eq_true, beq_iff_eq, ih bs]
      constructor
      · rintro ⟨rfl, t, rfl⟩
        exact ⟨t, rfl⟩
      · rintro ⟨t, h⟩
        cases h
        exact ⟨rfl, t, rfl⟩

theorem pfxOfL_append (p t : List Char) : pfxOfL p (p ++ t) = true :=
  (pfxOfL_iff p (p ++ t)).2 ⟨t, rfl⟩

theorem pfxOfL_length_le {p l : List Char} (h : pfxOfL p l = true) :
    p.length ≤ l.length := by
  obtain ⟨t, rfl⟩ := (pfxOfL_iff p l).1 h
  simp

theorem pfxOfL_false_of_long {p l : List Char} (h : l.length < p.length) :
    pfxOfL p l = false := by
  cases hp : pfxOfL p l with
  | false => rfl
  | true => exact absurd (pfxOfL_length_le hp) (by omega)

theorem pfxOfL_drop {p l : List Char} (h : pfxOfL p l = true) :
    l = p ++ l.drop p.length := by
  obtain ⟨t, rfl⟩ := (pfxOfL_iff p l).1 h
  rw [List.drop_left]

theorem hasPfx_iff (p s : String) : hasPfx p s = true ↔ ∃ t, s.data = p.data ++ t :=
  pfxOfL_iff p.data s.data

theorem hasPfx_append_slash_self (k : String) : hasPfx (k ++ "/") k = false := by
  apply pfxOfL_false_of_long
  simp [String.data_append]

theorem hasPfx_data_decomp {p k : String} (h : hasPfx p k = true) :
    k.data = p.data ++ k.data.drop (strLen p) :=
  pfxOfL_drop h

theorem mappedDest_inj {oldKey newKey k1 k2 : String}
    (h1 : hasPfx (oldKey ++ "/") k1 = true) (h2 : hasPfx (oldKey ++ "/") k2 = true)
    (h : mappedDest oldKey newKey k1 = mappedDest oldKey newKey k2) : k1 = k2 := by
  have hd : (mappedDest oldKey newKey k1).data = (mappedDest oldKey newKey k2).data := by
    rw [h]
  simp only [mappedDest, String.data_append, sliceFrom] at hd
  have hd' : k1.data.drop (strLen oldKey) = k2.data.drop (strLen oldKey) :=
    List.append_cancel_left hd
  have e1 : k1.data = oldKey.data ++ '/' :: k1.data.drop (strLen oldKey + 1) := by
    have := pfxOfL_drop ((hasPfx_iff _ _).2 ((hasPfx_iff _ _).1 h1))
    simpa [String.data_append, strLen] using this
  have e2 : k2.data = oldKey.data ++ '/' :: k2.data.drop (strLen oldKey + 1) := by
    have := pfxOfL_drop ((hasPfx_iff _ _).2 ((hasPfx_iff _ _).1 h2))
    simpa [String.data_append, strLen] using this
  apply strext
  have d1 : k1.data.drop (strLen oldKey) = '/' :: k1.data.drop (strLen oldKey + 1) := by
    conv_lhs => rw [e1]
    have : strLen oldKey = oldKey.data.length := rfl
    rw [this, List.drop_append_of_le_length (Nat.le_refl _)]
    simp
  have d2 : k2.data.drop (strLen oldKey) = '/' :: k2.data.drop (strLen oldKey + 1) := by
    conv_lhs => rw [e2]
    have : strLen oldKey = oldKey.data.length := rfl
    rw [this, List.drop_append_of_le_length (Nat.le_refl _)]
    simp
  rw [e1, e2]
  rw [d1, d2] at hd'
  simp only [List.cons.injEq] at hd'
  rw [hd'.2]

/-! Facts about lookup and the store primitives. -/

theorem lookup_eraseKey (s : Store) (k k' : String) :
    lookup (eraseKey s k) k' = if k' = k then none else lookup s k' := by
  induction s with
  | nil => simp [lookup, eraseKey]
  | cons e rest ih =>
    simp only [lookup, eraseKey, List.filter_cons] at *
    by_cases hek : e.key = k
    · simp only [hek, bne_self_eq_false]
      by_cases hk' : k' = k
      · simp only [hk'] at ih ⊢
        exact ih
      · have : (e.key == k') = false := by
          simp [hek]
          exact fun h => hk' h.symm
        simpa [List.find?_cons, this, hk'] using ih
    · have hne : (e.key != k) = true := by simp [hek]
      simp only [hne, if_true]
      by_cases hk2 : e.key = k'
      · have : (e.key == k') = true := by simp [hk2]
        by_cases hk' : k' = k
        · exact absurd (hk2.trans hk') hek
        · simp [List.find?_cons, this, hk']
      · have : (e.key == k') = false := by simp [hk2]
        simpa [List.find?_cons, this] using ih

theorem lookup_append (s1 s2 : Store) (k : String) :
    lookup (s1 ++ s2) k = (lookup s1 k).or (lookup s2 k) := by
  simp [lookup, List.find?_append]

theorem lookup_singleton_self (e : Entry) : lookup [e] e.key = some e := by
  simp [lookup, List.find?_cons]

theorem lookup_eraseKey_self (s : Store) (k : String) :
    lookup (eraseKey s k) k = none := by
  simp [lookup_eraseKey]

theorem lookup_eraseKey_ne (s : Store) {k k' : String} (h : k' ≠ k) :
    lookup (eraseKey s k) k' = lookup s k' := by
  simp [lookup_eraseKey, h]

theorem setWithTtl_eq (cfg : Config) (s : Store) (k v : String) :
    setWithTtl cfg s k v = eraseKey s k ++ [⟨k, v, ttlMark cfg⟩] := by
  unfold setWithTtl ttlMark redisSet redisSetex
  cases cfg.ttl with
  | none => rfl
  | some t =>
    by_cases h : t = 0 <;> simp [h]

theorem lookup_setWithTtl_self (cfg : Config) (s : Store) (k v : String) :
    lookup (setWithTtl cfg s k v) k = some ⟨k, v, ttlMark cfg⟩ := by
  rw [setWithTtl_eq, lookup_append, lookup_eraseKey_self]
  simpa using lookup_singleton_self ⟨k, v, ttlMark cfg⟩

theorem lookup_setWithTtl_ne (cfg : Config) (s : Store) {k k' : String} (v : String)
    (h : k' ≠ k) : lookup (setWithTtl cfg s k v) k' = lookup s k' := by
  rw [setWithTtl_eq, lookup_append, lookup_eraseKey_ne s h]
  have hb : ((⟨k, v, ttlMark cfg⟩ : Entry).key == k') = false := by
    simp only [beq_eq_false_iff_ne, ne_eq]
    exact fun h' => h h'.symm
  have : lookup [(⟨k, v, ttlMark cfg⟩ : Entry)] k' = none := by
    simp [lookup, List.find?_cons, hb]
  rw [this]
  cases lookup s k' <;> rfl

theorem lookup_redisExpire_self (s : Store) (k : String) (t : Nat) :
    lookup (redisExpire s k t) k =
      (lookup s k).map (fun e => { e with ttl := some t }) := by
  induction s with
  | nil => simp [lookup, redisExpire]
  | cons e rest ih =>
    simp only [lookup, redisExpire, List.map_cons, List.find?_cons] at *
    by_cases hk : e.key = k
    · simp [hk]
    · have h1 : (e.key == k) = false := by simp [hk]
      simp only [h1, if_neg hk]
      simpa [h1] using ih

theorem lookup_redisDel_ne (s : Store) {k k' : String} (h : k' ≠ k) :
    lookup (redisDel s k) k' = lookup s k' :=
  lookup_eraseKey_ne s h

theorem lookup_redisDel_self (s : Store) (k : String) :
    lookup (redisDel s k) k = none :=
  lookup_eraseKey_self s k

theorem redisGet_eq_map (s : Store) (k : String) :
    redisGet s k = (lookup s k).map (fun e => e.val) := rfl

theorem redisExists_eq_isSome (s : Store) (k : String) :
    redisExists s k = (lookup s k).isSome := rfl

theorem redisExists_false_iff (s : Store) (k : String) :
    redisExists s k = false ↔ lookup s k = none := by
  rw [redisExists_eq_isSome]
  cases lookup s k <;> simp

/-! Facts about the prefix scan. -/

theorem mem_redisKeysPrefix {s : Store} {pfx k : String} :
    k ∈ redisKeysPrefix s pfx ↔ ∃ e ∈ s, e.key = k ∧ hasPfx pfx k = true := by
  simp only [redisKeysPrefix, List.mem_map, List.mem_filter]
  constructor
  · rintro ⟨e, ⟨he, hp⟩, rfl⟩
    exact ⟨e, he, rfl, hp⟩
  · rintro ⟨e, he, rfl, hp⟩
    exact ⟨e, ⟨he, hp⟩, rfl⟩

theorem hasPfx_of_mem_redisKeysPrefix {s : Store} {pfx k : String}
    (h : k ∈ redisKeysPrefix s pfx) : hasPfx pfx k = true := by
  obtain ⟨e, _, rfl, hp⟩ := mem_redisKeysPrefix.1 h
  exact hp

theorem exists_of_mem_redisKeysPrefix {s : Store} {pfx k : String}
    (h : k ∈ redisKeysPrefix s pfx) : (lookup s k).isSome = true := by
  obtain ⟨e, he, rfl, _⟩ := mem_redisKeysPrefix.1 h
  exact List.find?_isSome.2 ⟨e, he, by simp⟩

theorem redisKeysPrefix_nodup {s : Store} (hwf : StoreWF s) (pfx : String) :
    (redisKeysPrefix s pfx).Nodup := by
  unfold redisKeysPrefix
  rw [List.Nodup, List.pairwise_map]
  exact hwf.filter _

theorem redisKeysPrefix_append (s1 s2 : Store) (pfx : String) :
    redisKeysPrefix (s1 ++ s2) pfx =
      redisKeysPrefix s1 pfx ++ redisKeysPrefix s2 pfx := by
  simp [redisKeysPrefix, List.filter_append]

theorem redisKeysPrefix_filter_nil {s : Store} {pfx : String}
    (h : redisKeysPrefix s pfx = []) (q : Entry → Bool) :
    redisKeysPrefix (s.filter q) pfx = [] := by
  rw [List.eq_nil_iff_forall_not_mem]
  intro k hk
  obtain ⟨e, he, rfl, hp⟩ := mem_redisKeysPrefix.1 hk
  have : e.key ∈ redisKeysPrefix s pfx :=
    mem_redisKeysPrefix.2 ⟨e, (List.mem_filter.1 he).1, rfl, hp⟩
  rw [h] at this
  exact absurd this (List.not_mem_nil _)

theorem redisKeysPrefix_singleton_nil {e : Entry} {pfx : String}
    (h : hasPfx pfx e.key = false) : redisKeysPrefix [e] pfx = [] := by
  simp [redisKeysPrefix, List.filter_cons, h]

/-! Facts about slash collapsing and normalization. -/

theorem collapseAux_true_eq (cs : List Char) :
    collapseAux true cs =
      (if (collapseAux false cs).head? = some '/' then (collapseAux false cs).tail
       else collapseAux false cs) := by
  cases cs with
  | nil => simp [collapseAux]
  | cons c rest =>
    by_cases hc : c = '/'
    · simp [collapseAux, hc]
    · simp [collapseAux, hc]

theorem collapseAux_false_eq_spec (cs : List Char) :
    collapseAux false cs = collapseSpec cs := by
  induction cs with
  | nil => rfl
  | cons c rest ih =>
    have hstep : collapseSpec (c :: rest) =
        (if c = '/' ∧ (collapseSpec rest).head? = some '/' then collapseSpec rest
         else c :: collapseSpec rest) := rfl
    by_cases hc : c = '/'
    · subst hc
      rw [hstep]
      show '/' :: collapseAux true rest = _
      rw [collapseAux_true_eq, ih]
      by_cases hh : (collapseSpec rest).head? = some '/'
      · rw [if_pos hh, if_pos ⟨rfl, hh⟩]
        cases hF : collapseSpec rest with
        | nil => rw [hF] at hh; simp at hh
        | cons a t =>
          rw [hF] at hh
          simp only [List.head?_cons, Option.some.injEq] at hh
          simp [hh]
      · rw [if_neg hh, if_neg (fun hx => hh hx.2)]
    · rw [hstep, if_neg (fun hx => hc hx.1)]
      simp only [collapseAux, if_neg hc]
      rw [ih]

theorem collapseAux_true_head_ne (cs : List Char) :
    (collapseAux true cs).head? ≠ some '/' := by
  induction cs with
  | nil => simp [collapseAux]
  | cons c rest ih =>
    by_cases hc : c = '/'
    · simpa [collapseAux, hc] using ih
    · simp [collapseAux, hc]

theorem noDupSlash_collapseAux (cs : List Char) :
    ∀ b, noDupSlash (collapseAux b cs) = true := by
  induction cs with
  | nil => intro b; rfl
  | cons c rest ih =>
    intro b
    by_cases hc : c = '/'
    · subst hc
      cases b with
      | true =>
        show noDupSlash (collapseAux true rest) = true
        simpa [collapseAux] using ih true
      | false =>
        show noDupSlash ('/' :: collapseAux true rest) = true
        cases hX : collapseAux true rest with
        | nil => rfl
        | cons x xt =>
          have hx : x ≠ '/' := by
            have := collapseAux_true_head_ne rest
            rw [hX] at this
            simpa using this
          have hrest : noDupSlash (x :: xt) = true := by
            rw [← hX]; exact ih true
          show noDupSlash ('/' :: x :: xt) = true
          simp only [noDupSlash, Bool.and_eq_true]
          refine ⟨?_, hrest⟩
          simp [hx]
    · simp only [collapseAux, if_neg hc]
      cases hX : collapseAux false rest with
      | nil => rfl
      | cons x xt =>
        have hrest : noDupSlash (x :: xt) = true := by
          rw [← hX]; exact ih false
        show noDupSlash (c :: x :: xt) = true
        simp only [noDupSlash, Bool.and_eq_true]
        refine ⟨?_, hrest⟩
        simp [hc]

theorem noDupSlash_two_trailing (d : List Char) :
    noDupSlash (d ++ ['/', '/']) = false := by
  induction d with
  | nil => rfl
  | cons a d' ih =>
    rw [List.cons_append]
    cases hD : d' ++ ['/', '/'] with
    | nil => simp at hD
    | cons b r =>
      have hu : noDupSlash (a :: b :: r) =
          (!(decide (a = '/') && decide (b = '/')) && noDupSlash (b :: r)) := rfl
      rw [hu, ← hD, ih, Bool.and_false]

theorem stripLastSlash_no_trailing {cs : List Char} (h : noDupSlash cs = true) :
    (stripLastSlash cs).getLast? ≠ some '/' := by
  cases hl : cs.getLast? with
  | none =>
    have hnil : cs = [] := List.getLast?_eq_none_iff.1 hl
    subst hnil
    simp [stripLastSlash]
  | some c =>
    by_cases hc : c = '/'
    · subst hc
      have hs : stripLastSlash cs = cs.dropLast := by
        unfold stripLastSlash
        rw [hl]
        simp
      rw [hs]
      intro hbad
      have hne : cs ≠ [] := by
        intro hnil
        rw [hnil] at hl
        simp at hl
      have h1 : cs = cs.dropLast ++ ['/'] := by
        conv_lhs => rw [← List.dropLast_append_getLast hne]
        rw [List.getLast?_eq_getLast cs hne] at hl
        simp only [Option.some.injEq] at hl
        rw [hl]
      have hne2 : cs.dropLast ≠ [] := by
        intro hnil
        rw [hnil] at hbad
        simp at hbad
      have h2 : cs.dropLast = cs.dropLast.dropLast ++ ['/'] := by
        conv_lhs => rw [← List.dropLast_append_getLast hne2]
        rw [List.getLast?_eq_getLast _ hne2] at hbad
        simp only [Option.some.injEq] at hbad
        rw [hbad]
      rw [h1, h2, List.append_assoc, List.singleton_append] at h
      rw [noDupSlash_two_trailing] at h
      exact Bool.false_ne_true h
    · have hs : stripLastSlash cs = cs := by
        unfold stripLastSlash
        rw [hl]
        simp [hc]
      rw [hs, hl]
      simp [hc]

/-! Facts about splitting, joining and occurrence counting. -/

theorem splitNE_ne_nil (s0 : Char) (sr cs : List Char) : splitNE s0 sr cs ≠ [] := by
  induction cs using splitNE.induct s0 sr with
  | case1 => simp [splitNE]
  | case2 c rest hp ih => simp [splitNE, hp]
  | case3 c rest hp hm ih => simp_all [splitNE]
  | case4 c rest hp h t hm ih => simp [splitNE, hp, hm]

theorem intercalateL_splitNE (s0 : Char) (sr cs : List Char) :
    intercalateL (s0 :: sr) (splitNE s0 sr cs) = cs := by
  induction cs using splitNE.induct s0 sr with
  | case1 => simp [splitNE, intercalateL]
  | case2 c rest hp ih =>
    have hs : splitNE s0 sr (c :: rest) = [] :: splitNE s0 sr (rest.drop sr.length) := by
      simp [splitNE, hp]
    rw [hs]
    cases hL : splitNE s0 sr (rest.drop sr.length) with
    | nil => exact absurd hL (splitNE_ne_nil s0 sr _)
    | cons h t =>
      rw [hL] at ih
      have : intercalateL (s0 :: sr) ([] :: h :: t) =
          (s0 :: sr) ++ intercalateL (s0 :: sr) (h :: t) := rfl
      rw [this, ih]
      have hdec := pfxOfL_drop hp
      rw [List.length_cons, List.drop_succ_cons] at hdec
      exact hdec.symm
  | case3 c rest hp hm ih => exact absurd hm (splitNE_ne_nil s0 sr rest)
  | case4 c rest hp h t hm ih =>
    have hs : splitNE s0 sr (c :: rest) = (c :: h) :: t := by
      simp [splitNE, hp, hm]
    rw [hs]
    rw [hm] at ih
    cases t with
    | nil =>
      have h1 : intercalateL (s0 :: sr) [c :: h] = c :: h := rfl
      have h2 : intercalateL (s0 :: sr) [h] = h := rfl
      rw [h2] at ih
      rw [h1, ih]
    | cons t0 ts =>
      have h1 : intercalateL (s0 :: sr) ((c :: h) :: t0 :: ts) =
          (c :: h) ++ (s0 :: sr) ++ intercalateL (s0 :: sr) (t0 :: ts) := rfl
      have h2 : intercalateL (s0 :: sr) (h :: t0 :: ts) =
          h ++ (s0 :: sr) ++ intercalateL (s0 :: sr) (t0 :: ts) := rfl
      rw [h2] at ih
      rw [h1, ← ih]
      simp

theorem splitNE_length (s0 : Char) (sr cs : List Char) :
    (splitNE s0 sr cs).length = countOccs s0 sr cs + 1 := by
  induction cs using splitNE.induct s0 sr with
  | case1 => simp [splitNE, countOccs]
  | case2 c rest hp ih =>
    have hs : splitNE s0 sr (c :: rest) = [] :: splitNE s0 sr (rest.drop sr.length) := by
      simp [splitNE, hp]
    have hc : countOccs s0 sr (c :: rest) = countOccs s0 sr (rest.drop sr.length) + 1 := by
      simp only [countOccs]
      rw [if_pos hp]
    rw [hs, List.length_cons, ih, hc]
  | case3 c rest hp hm ih => exact absurd hm (splitNE_ne_nil s0 sr rest)
  | case4 c rest hp h t hm ih =>
    have hs : splitNE s0 sr (c :: rest) = (c :: h) :: t := by
      simp [splitNE, hp, hm]
    have hc : countOccs s0 sr (c :: rest) = countOccs s0 sr rest := by
      simp only [countOccs]
      rw [if_neg hp]
    rw [hs, List.length_cons, hc, ← ih, hm, List.length_cons]

theorem substL_no_dollar (pre matched post : List Char) :
    ∀ ns, '$' ∉ ns → substL pre matched post ns = ns := by
  intro ns
  induction ns with
  | nil => intro _; simp [substL]
  | cons c rest ih =>
    intro hnd
    have hc : c ≠ '$' := fun h => hnd (h ▸ List.mem_cons_self c rest)
    have hrest : '$' ∉ rest := fun h => hnd (List.mem_cons_of_mem c h)
    rw [substL.eq_def]
    simp only []
    rw [if_neg hc, ih hrest]

/-! Facts about the two loops of the directory branch of `rename`. -/

theorem renameConflict_none_iff (s : Store) (oldKey newKey : String) :
    ∀ ks, renameConflict s oldKey newKey ks = none ↔
      ∀ k ∈ ks, redisExists s (mappedDest oldKey newKey k) = false := by
  intro ks
  induction ks with
  | nil => simp [renameConflict]
  | cons k rest ih =>
    unfold renameConflict
    by_cases hex : redisExists s (newKey ++ sliceFrom k (strLen oldKey)) = true
    · simp only [hex, if_true]
      constructor
      · intro h; exact absurd h (by simp)
      · intro h
        have := h k (List.mem_cons_self k rest)
        rw [show mappedDest oldKey newKey k = newKey ++ sliceFrom k (strLen oldKey) from rfl] at this
        rw [hex] at this
        exact absurd this (by simp)
    · have hex' : redisExists s (newKey ++ sliceFrom k (strLen oldKey)) = false := by
        cases h : redisExists s (newKey ++ sliceFrom k (strLen oldKey)) with
        | false => rfl
        | true => exact absurd h hex
      simp only [hex', Bool.false_eq_true, if_false]
      rw [ih]
      constructor
      · intro h k' hk'
        cases List.mem_cons.1 hk' with
        | inl heq => rw [heq]; exact hex'
        | inr hmem => exact h k' hmem
      · intro h k' hk'
        exact h k' (List.mem_cons_of_mem k hk')

theorem renameConflict_some_of_exists {s : Store} {oldKey newKey : String}
    {ks : List String}
    (h : ∃ k ∈ ks, redisExists s (mappedDest oldKey newKey k) = true) :
    ∃ rel, renameConflict s oldKey newKey ks = some rel := by
  cases hc : renameConflict s oldKey newKey ks with
  | some rel => exact ⟨rel, rfl⟩
  | none =>
    obtain ⟨k, hk, hex⟩ := h
    have := (renameConflict_none_iff s oldKey newKey ks).1 hc k hk
    rw [hex] at this
    exact absurd this (by simp)

theorem renameMove_spec (cfg : Config) (oldKey newKey : String) :
    ∀ (ks : List String) (s : Store),
      ks.Nodup →
      (∀ k ∈ ks, (lookup s k).isSome = true) →
      (∀ k ∈ ks, lookup s (mappedDest oldKey newKey k) = none) →
      (∀ k1 ∈ ks, ∀ k2 ∈ ks,
        mappedDest oldKey newKey k1 = mappedDest oldKey newKey k2 → k1 = k2) →
      (∀ k1 ∈ ks, ∀ k2 ∈ ks, mappedDest oldKey newKey k1 ≠ k2) →
      (∀ k ∈ ks, lookup (renameMove cfg oldKey newKey ks s) k = none) ∧
      (∀ k ∈ ks, ∀ v, redisGet s k = some v →
        lookup (renameMove cfg oldKey newKey ks s) (mappedDest oldKey newKey k) =
          some ⟨mappedDest oldKey newKey k, v, ttlMark cfg⟩) ∧
      (∀ q, q ∉ ks → (∀ k ∈ ks, q ≠ mappedDest oldKey newKey k) →
        lookup (renameMove cfg oldKey newKey ks s) q = lookup s q) := by
  intro ks
  induction ks with
  | nil =>
    intro s _ _ _ _ _
    exact ⟨by simp, by simp, fun q _ _ => rfl⟩
  | cons k rest ih =>
    intro s hnd hsome hdst hinj hnk
    have hkmem : k ∈ k :: rest := List.mem_cons_self k rest
    have hknotin : k ∉ rest := (List.nodup_cons.1 hnd).1
    have hndrest : rest.Nodup := (List.nodup_cons.1 hnd).2
    obtain ⟨e, he⟩ := Option.isSome_iff_exists.1 (hsome k hkmem)
    have hget : redisGet s k = some e.val := by
      rw [redisGet_eq_map, he]
      rfl
    have hmv : renameMove cfg oldKey newKey (k :: rest) s =
        renameMove cfg oldKey newKey rest
          (redisDel (setWithTtl cfg s (mappedDest oldKey newKey k) e.val) k) := by
      simp only [renameMove]
      rw [hget]
      rfl
    have hDnek : mappedDest oldKey newKey k ≠ k := hnk k hkmem k hkmem
    -- the store after moving the head key
    have hstep :
        ∀ q, q ≠ k → q ≠ mappedDest oldKey newKey k →
          lookup (redisDel (setWithTtl cfg s (mappedDest oldKey newKey k) e.val) k) q =
            lookup s q := by
      intro q hq1 hq2
      rw [lookup_redisDel_ne _ hq1, lookup_setWithTtl_ne _ _ _ hq2]
    have hstepD :
        lookup (redisDel (setWithTtl cfg s (mappedDest oldKey newKey k) e.val) k)
            (mappedDest oldKey newKey k) =
          some ⟨mappedDest oldKey newKey k, e.val, ttlMark cfg⟩ := by
      rw [lookup_redisDel_ne _ hDnek, lookup_setWithTtl_self]
    have hstepK :
        lookup (redisDel (setWithTtl cfg s (mappedDest oldKey newKey k) e.val) k) k =
          none := lookup_redisDel_self _ k
    -- transported hypotheses for the tail
    have hsome' : ∀ k' ∈ rest,
        (lookup (redisDel (setWithTtl cfg s (mappedDest oldKey newKey k) e.val) k) k').isSome = true := by
      intro k' hk'
      have h1 : k' ≠ k := fun h => hknotin (h ▸ hk')
      have h2 : k' ≠ mappedDest oldKey newKey k := by
        intro h
        exact hnk k hkmem k' (List.mem_cons_of_mem k hk') h.symm
      rw [hstep k' h1 h2]
      exact hsome k' (List.mem_cons_of_mem k hk')
    have hdst' : ∀ k' ∈ rest,
        lookup (redisDel (setWithTtl cfg s (mappedDest oldKey newKey k) e.val) k)
          (mappedDest oldKey newKey k') = none := by
      intro k' hk'
      have h1 : mappedDest oldKey newKey k' ≠ k :=
        hnk k' (List.mem_cons_of_mem k hk') k hkmem
      have h2 : mappedDest oldKey newKey k' ≠ mappedDest oldKey newKey k := by
        intro h
        have heq := hinj k' (List.mem_cons_of_mem k hk') k hkmem h
        rw [heq] at hk'
        exact hknotin hk'
      rw [hstep _ h1 h2]
      exact hdst k' (List.mem_cons_of_mem k hk')
    have hinj' : ∀ k1 ∈ rest, ∀ k2 ∈ rest,
        mappedDest oldKey newKey k1 = mappedDest oldKey newKey k2 → k1 = k2 :=
      fun k1 h1 k2 h2 =>
        hinj k1 (List.mem_cons_of_mem k h1) k2 (List.mem_cons_of_mem k h2)
    have hnk' : ∀ k1 ∈ rest, ∀ k2 ∈ rest, mappedDest oldKey newKey k1 ≠ k2 :=
      fun k1 h1 k2 h2 =>
        hnk k1 (List.mem_cons_of_mem k h1) k2 (List.mem_cons_of_mem k h2)
    obtain ⟨A, B, C⟩ := ih _ hndrest hsome' hdst' hinj' hnk'
    refine ⟨?_, ?_, ?_⟩
    · intro k' hk'
      cases List.mem_cons.1 hk' with
      | inl heq =>
        subst heq
        rw [hmv]
        rw [C k' hknotin (fun k2 hk2 => (hnk k2 (List.mem_cons_of_mem k' hk2) k' hkmem).symm)]
        exact hstepK
      | inr hmem =>
        rw [hmv]
        exact A k' hmem
    · intro k' hk' v hv
      cases List.mem_cons.1 hk' with
      | inl heq =>
        subst heq
        have hveq : v = e.val := by
          rw [hget] at hv
          exact (Option.some.inj hv).symm
        subst hveq
        rw [hmv]
        have hnotin : mappedDest oldKey newKey k' ∉ rest := by
          intro h
          exact hnk k' hkmem (mappedDest oldKey newKey k') (List.mem_cons_of_mem k' h) rfl
        have hnedst : ∀ k2 ∈ rest, mappedDest oldKey newKey k' ≠ mappedDest oldKey newKey k2 := by
          intro k2 hk2 h
          have heq := hinj k' hkmem k2 (List.mem_cons_of_mem k' hk2) h
          rw [heq] at hknotin
          exact hknotin hk2
        rw [C (mappedDest oldKey newKey k') hnotin hnedst]
        exact hstepD
      | inr hmem =>
        rw [hmv]
        have h1 : k' ≠ k := fun h => hknotin (h ▸ hmem)
        have h2 : k' ≠ mappedDest oldKey newKey k :=
          fun h => hnk k hkmem k' (List.mem_cons_of_mem k hmem) h.symm
        have hv' : redisGet
            (redisDel (setWithTtl cfg s (mappedDest oldKey newKey k) e.val) k) k' =
            some v := by
          rw [redisGet_eq_map, hstep k' h1 h2, ← redisGet_eq_map]
          exact hv
        exact B k' hmem v hv'
    · intro q hq hqd
      rw [hmv]
      have hqrest : q ∉ rest := fun h => hq (List.mem_cons_of_mem k h)
      have hqdrest : ∀ k2 ∈ rest, q ≠ mappedDest oldKey newKey k2 :=
        fun k2 h => hqd k2 (List.mem_cons_of_mem k h)
      rw [C q hqrest hqdrest]
      exact hstep q (fun h => hq (h ▸ hkmem)) (hqd k hkmem)

/-! Reduction lemmas for the handlers under explicit branch hypotheses. -/

theorem create_ok {cfg : Config} {s : Store} {p t key : String}
    (hk : pathToKey cfg p = Except.ok key) (hex : redisExists s key = false) :
    create cfg s p t =
      (setWithTtl cfg s key t, Except.ok ("File created successfully at " ++ p)) := by
  unfold create
  rw [hk]
  simp [hex]

theorem create_err {cfg : Config} {s : Store} {p t key : String}
    (hk : pathToKey cfg p = Except.ok key) (hex : redisExists s key = true) :
    create cfg s p t = (s, Except.error ("File already exists: " ++ p)) := by
  unfold create
  rw [hk]
  simp [hex]

theorem view_file_fst {cfg : Config} {s : Store} {p key content : String}
    (hroot : p ≠ "/memories") (hk : pathToKey cfg p = Except.ok key)
    (hc : redisGet s key = some content) (r : Option (List Int)) :
    (view cfg s p r).1 = refreshTtl cfg s key := by
  unfold view
  rw [if_neg hroot, hk]
  simp only []
  rw [hc]

theorem view_file_none_eq {cfg : Config} {s : Store} {p key content : String}
    (hroot : p ≠ "/memories") (hk : pathToKey cfg p = Except.ok key)
    (hc : redisGet s key = some content) :
    view cfg s p none = (refreshTtl cfg s key, Except.ok (renderAll content)) := by
  unfold view
  rw [if_neg hroot, hk]
  simp only []
  rw [hc]
  rfl

theorem view_dir_fst {cfg : Config} {s : Store} {p key : String}
    (hroot : p ≠ "/memories") (hk : pathToKey cfg p = Except.ok key)
    (hc : redisGet s key = none) (r : Option (List Int)) :
    (view cfg s p r).1 = s := by
  unfold view
  rw [if_neg hroot, hk]
  simp only []
  rw [hc]
  by_cases h : (redisKeysPrefix s (key ++ "/")).isEmpty = true <;> simp [h]

theorem view_root_fst (cfg : Config) (s : Store) (r : Option (List Int)) :
    (view cfg s "/memories" r).1 = s := by
  unfold view
  rw [if_pos rfl]
  by_cases h : (redisKeysPrefix s (cfg.keyPrefix ++ ":/memories/")).isEmpty = true <;>
    simp [h]

theorem delete_file_eq {cfg : Config} {s : Store} {p key : String}
    (hroot : p ≠ "/memories") (hk : pathToKey cfg p = Except.ok key)
    (hex : redisExists s key = true) :
    delete cfg s p = (redisDel s key, Except.ok ("File deleted: " ++ p)) := by
  unfold delete
  rw [if_neg hroot, hk]
  simp [hex]

theorem str_replace_one_eq {cfg : Config} {s : Store} {p o n key content : String}
    (hk : pathToKey cfg p = Except.ok key) (hc : redisGet s key = some content)
    (h1 : strReplaceCount content o = 1) :
    str_replace cfg s p o n =
      (setWithTtl cfg s key (jsReplace content o n),
        Except.ok ("File " ++ p ++ " has been edited")) := by
  unfold str_replace
  rw [hk]
  simp only []
  rw [hc]
  simp [h1]

theorem insert_ok_eq {cfg : Config} {s : Store} {p text key content : String} {i : Int}
    (hk : pathToKey cfg p = Except.ok key) (hc : redisGet s key = some content)
    (h0 : 0 ≤ i) (hn : i ≤ ((linesOf content).length : Int)) :
    insert cfg s p i text =
      (setWithTtl cfg s key
        (joinWith "\n" ((linesOf content).take i.toNat ++ [stripTrailingNl text] ++
          (linesOf content).drop i.toNat)),
        Except.ok ("Text inserted at line " ++ toString i ++ " in " ++ p)) := by
  unfold insert
  rw [hk]
  simp only []
  rw [hc]
  have hcond : (decide (i < 0) || decide (i > ((linesOf content).length : Int))) = false := by
    simp only [Bool.or_eq_false_iff, decide_eq_false_iff_not]
    omega
  simp only [hcond, Bool.false_eq_true, if_false]

theorem lookup_key_of_some {s : Store} {k : String} {e : Entry}
    (h : lookup s k = some e) : e.key = k := by
  have := List.find?_some h
  simpa using this

theorem noDupSlash_dropLast : ∀ cs, noDupSlash cs = true → noDupSlash cs.dropLast = true := by
  intro cs
  induction cs with
  | nil => intro _; rfl
  | cons a tail ih =>
    intro h
    cases tail with
    | nil => rfl
    | cons b rest =>
      have hu : noDupSlash (a :: b :: rest) =
          (!(decide (a = '/') && decide (b = '/')) && noDupSlash (b :: rest)) := rfl
      rw [hu, Bool.and_eq_true] at h
      have hd : (a :: b :: rest).dropLast = a :: (b :: rest).dropLast := rfl
      rw [hd]
      have ihr := ih h.2
      cases rest with
      | nil => rfl
      | cons c r2 =>
        have hd2 : (b :: c :: r2).dropLast = b :: (c :: r2).dropLast := rfl
        rw [hd2]
        rw [hd2] at ihr
        have hu2 : noDupSlash (a :: b :: (c :: r2).dropLast) =
            (!(decide (a = '/') && decide (b = '/')) && noDupSlash (b :: (c :: r2).dropLast)) := rfl
        rw [hu2, Bool.and_eq_true]
        exact ⟨h.1, ihr⟩

theorem noDupSlash_stripLastSlash {cs : List Char} (h : noDupSlash cs = true) :
    noDupSlash (stripLastSlash cs) = true := by
  cases hl : cs.getLast? with
  | none =>
    have hs : stripLastSlash cs = cs := by
      unfold stripLastSlash
      rw [hl]
    rw [hs]
    exact h
  | some c =>
    by_cases hc : c = '/'
    · have hs : stripLastSlash cs = cs.dropLast := by
        unfold stripLastSlash
        rw [hl]
        simp [hc]
      rw [hs]
      exact noDupSlash_dropLast cs h
    · have hs : stripLastSlash cs = cs := by
        unfold stripLastSlash
        rw [hl]
        simp [hc]
      rw [hs]
      exact h

theorem redisKeysPrefix_eraseKey {s : Store} {k pfx : String} (h : hasPfx pfx k = false) :
    redisKeysPrefix (eraseKey s k) pfx = redisKeysPrefix s pfx := by
  induction s with
  | nil => rfl
  | cons e rest ih =>
    by_cases hek : e.key = k
    · simp only [eraseKey, redisKeysPrefix, List.filter_cons, hek, bne_self_eq_false,
        Bool.false_eq_true, if_false, h] at *
      exact ih
    · have h1 : (e.key != k) = true := by simp [hek]
      by_cases h2 : hasPfx pfx e.key = true
      · simp only [eraseKey, redisKeysPrefix, List.filter_cons, h1, if_true, h2,
          List.map_cons] at *
        rw [ih]
      · have h2' : hasPfx pfx e.key = false := by
          cases hx : hasPfx pfx e.key with
          | false => rfl
          | true => exact absurd hx h2
        simp only [eraseKey, redisKeysPrefix, List.filter_cons, h1, if_true, h2',
          Bool.false_eq_true, if_false] at *
        exact ih

theorem redisKeysPrefix_setWithTtl_self (cfg : Config) (s : Store) (key t : String) :
    redisKeysPrefix (setWithTtl cfg s key t) (key ++ "/") =
      redisKeysPrefix s (key ++ "/") := by
  rw [setWithTtl_eq, redisKeysPrefix_append,
    redisKeysPrefix_singleton_nil (hasPfx_append_slash_self key), List.append_nil,
    redisKeysPrefix_eraseKey (hasPfx_append_slash_self key)]

theorem scan_after_create_delete {s : Store} {key t : String} (cfg : Config)
    (h : redisKeysPrefix s (key ++ "/") = []) :
    redisKeysPrefix (redisDel (setWithTtl cfg s key t) key) (key ++ "/") = [] := by
  have h1 : redisKeysPrefix (setWithTtl cfg s key t) (key ++ "/") = [] := by
    rw [redisKeysPrefix_setWithTtl_self]
    exact h
  exact redisKeysPrefix_filter_nil h1 _

theorem insert_err_eq {cfg : Config} {s : Store} {p text key content : String} {i : Int}
    (hk : pathToKey cfg p = Except.ok key) (hc : redisGet s key = some content)
    (hcond : i < 0 ∨ ((linesOf content).length : Int) < i) :
    insert cfg s p i text =
      (s, Except.error ("Invalid insert_line " ++ toString i ++ ". Must be 0-" ++
        toString (linesOf content).length)) := by
  unfold insert
  rw [hk]
  simp only []
  rw [hc]
  have hb : (decide (i < 0) || decide (i > ((linesOf content).length : Int))) = true := by
    rcases hcond with h | h <;> simp [h]
  simp only [hb, if_true]

theorem jsSplitL_cons (o0 : Char) (or cs : List Char) :
    jsSplitL (o0 :: or) cs = splitNE o0 or cs := rfl

theorem jsReplaceL_two {o0 : Char} {or cs ns p0 p1 : List Char}
    (hsplit : splitNE o0 or cs = [p0, p1]) :
    jsReplaceL cs (o0 :: or) ns = p0 ++ substL p0 (o0 :: or) p1 ns ++ p1 := by
  have hstep : jsReplaceL cs (o0 :: or) ns =
      (match splitNE o0 or cs with
       | [] => cs
       | [_] => cs
       | q0 :: q1 :: rest =>
         q0 ++ substL q0 (o0 :: or) (intercalateL (o0 :: or) (q1 :: rest)) ns ++
           intercalateL (o0 :: or) (q1 :: rest)) := rfl
  rw [hstep, hsplit]
  rfl

theorem str_replace_notfound_eq {cfg : Config} {s : Store} {p o n key content : String}
    (hk : pathToKey cfg p = Except.ok key) (hc : redisGet s key = some content)
    (h0 : strReplaceCount content o = 0) :
    str_replace cfg s p o n = (s, Except.error ("Text not found in " ++ p)) := by
  unfold str_replace
  rw [hk]
  simp only []
  rw [hc]
  simp [h0]

theorem str_replace_many_eq {cfg : Config} {s : Store} {p o n key content : String}
    (hk : pathToKey cfg p = Except.ok key) (hc : redisGet s key = some content)
    (h1 : strReplaceCount content o > 1) :
    str_replace cfg s p o n =
      (s, Except.error ("Text appears " ++ toString (strReplaceCount content o) ++
        " times in " ++ p ++ ". Must be unique.")) := by
  unfold str_replace
  rw [hk]
  simp only []
  rw [hc]
  have hne : ¬ strReplaceCount content o = 0 := by omega
  simp [hne, h1]

theorem classify_eq {cfg : Config} {s : Store} {p key : String}
    (hk : pathToKey cfg p = Except.ok key) :
    classify cfg s p =
      (if redisExists s key = true then Except.ok PathKind.File
       else if (!(redisKeysPrefix s (key ++ "/")).isEmpty) = true then
         Except.ok PathKind.Directory
       else Except.ok PathKind.Absent) := by
  unfold classify
  rw [hk]

/-! The claims. -/

/-- C3 (code bug): the code protects only the literal path `/memories`; the
spelling `/memories/`, which normalizes to the root, bypasses the guard: on a
non-empty namespace it deletes every descendant and reports success, and on an
empty namespace it reports a not-found error — in both cases not the
protected-path error, and in the first case the store is changed. The literal
spelling alone is always rejected with the protected-path error. -/
theorem c3_delete_root_slash :
    delete ⟨"memory", none⟩ [⟨"memory:/memories/a", "x", none⟩] "/memories/" =
      ([], Except.ok "Directory deleted: /memories/") ∧
    delete ⟨"memory", none⟩ [] "/memories/" =
      ([], Except.error "Path not found: /memories/") ∧
    (∀ s : Store, delete ⟨"memory", none⟩ s "/memories" =
      (s, Except.error "Cannot delete the /memories directory itself")) := by
  refine ⟨rfl, rfl, fun s => rfl⟩

/-- C4: `pathToKey` fails exactly on the paths that do not start (as strings)
with `/memories`; on success the key is the configured prefix, a colon, and
the path with every run of repeated separators collapsed to one (expressed by
the independent one-pass characterization `collapseSpec`) and one trailing
separator stripped; the normalized part has no repeated separators left and
does not end with a separator. -/
theorem c4_pathToKey_spec (cfg : Config) (p : String) :
    ((∃ e, pathToKey cfg p = Except.error e) ↔ ¬ (∃ t, p.data = "/memories".data ++ t)) ∧
    (∀ k, pathToKey cfg p = Except.ok k →
      k.data = cfg.keyPrefix.data ++ ':' :: stripLastSlash (collapseSpec p.data) ∧
      noDupSlash (stripLastSlash (collapseSpec p.data)) = true ∧
      (stripLastSlash (collapseSpec p.data)).getLast? ≠ some '/') := by
  unfold pathToKey
  by_cases hp : hasPfx "/memories" p = true
  · rw [if_pos hp]
    constructor
    · constructor
      · rintro ⟨e, he⟩
        exact absurd he (by simp)
      · intro hne
        exact absurd ((hasPfx_iff _ _).1 hp) hne
    · intro k hk
      have hkk : cfg.keyPrefix ++ ":" ++ normalizePath p = k := Except.ok.inj hk
      have hdata : k.data = cfg.keyPrefix.data ++ ':' :: stripLastSlash (collapseAux false p.data) := by
        rw [← hkk]
        rw [String.data_append, String.data_append, List.append_assoc]
        rfl
      rw [collapseAux_false_eq_spec] at hdata
      refine ⟨hdata, ?_, ?_⟩
      · rw [← collapseAux_false_eq_spec]
        exact noDupSlash_stripLastSlash (noDupSlash_collapseAux p.data false)
      · rw [← collapseAux_false_eq_spec]
        exact stripLastSlash_no_trailing (noDupSlash_collapseAux p.data false)
  · rw [if_neg hp]
    constructor
    · constructor
      · intro _
        intro hex
        exact hp ((hasPfx_iff "/memories" p).2 hex)
      · intro _
        exact ⟨_, rfl⟩
    · intro k hk
      exact absurd hk (by simp)

/-- Witness for C4 at a concrete path with a repeated and a trailing
separator. -/
theorem c4_pathToKey_spec_witness :
    "memory:/memories/a".data =
        "memory".data ++ ':' :: stripLastSlash (collapseSpec "/memories//a/".data) ∧
    noDupSlash (stripLastSlash (collapseSpec "/memories//a/".data)) = true ∧
    (stripLastSlash (collapseSpec "/memories//a/".data)).getLast? ≠ some '/' :=
  (c4_pathToKey_spec ⟨"memory", none⟩ "/memories//a/").2 "memory:/memories/a" rfl

/-- C8: `view` of the root path never fails: it leaves the store unchanged,
always returns a success message, and on an empty scan returns the explicit
"(empty)" directory indicator. -/
theorem c8_view_root_total (cfg : Config) (s : Store) (r : Option (List Int)) :
    (view cfg s "/memories" r).1 = s ∧
    (∃ m, (view cfg s "/memories" r).2 = Except.ok m) ∧
    ((redisKeysPrefix s (cfg.keyPrefix ++ ":/memories/")).isEmpty = true →
      (view cfg s "/memories" r).2 = Except.ok "Directory: /memories\n(empty)") ∧
    ((redisKeysPrefix s (cfg.keyPrefix ++ ":/memories/")).isEmpty = false →
      (view cfg s "/memories" r).2 = Except.ok ("Directory: /memories\n" ++
        joinWith "\n" ((listChildren cfg s "/memories" (cfg.keyPrefix ++ ":/memories")
          (redisKeysPrefix s (cfg.keyPrefix ++ ":/memories/"))).map
            (fun it => "- " ++ it)))) := by
  refine ⟨view_root_fst cfg s r, ?_, ?_, ?_⟩
  · unfold view
    rw [if_pos rfl]
    by_cases h : (redisKeysPrefix s (cfg.keyPrefix ++ ":/memories/")).isEmpty = true
    · rw [if_pos h]
      exact ⟨_, rfl⟩
    · rw [if_neg h]
      exact ⟨_, rfl⟩
  · intro h
    unfold view
    rw [if_pos rfl, if_pos h]
  · intro h
    unfold view
    rw [if_pos rfl, if_neg (by rw [h]; exact Bool.false_ne_true)]

/-- Witness for C8 on the empty store. -/
theorem c8_view_root_total_witness :
    (view ⟨"memory", none⟩ [] "/memories" none).2 =
      Except.ok "Directory: /memories\n(empty)" :=
  (c8_view_root_total ⟨"memory", none⟩ [] none).2.2.1 rfl

/-- Counterexample to C5 as stated: in a store holding `/memories/a/b`, the
path `/memories/a` has no exact entry, so `create` succeeds and a subsequent
`delete` succeeds (file branch), yet afterwards the path classifies as
`Directory` — not `Absent` — because the descendant entry still exists. -/
theorem c5_counterexample :
    (create ⟨"memory", none⟩ [⟨"memory:/memories/a/b", "x", none⟩] "/memories/a" "y").2 =
      Except.ok "File created successfully at /memories/a" ∧
    (delete ⟨"memory", none⟩
        (create ⟨"memory", none⟩ [⟨"memory:/memories/a/b", "x", none⟩] "/memories/a" "y").1
        "/memories/a").2 = Except.ok "File deleted: /memories/a" ∧
    classify ⟨"memory", none⟩
        (delete ⟨"memory", none⟩
          (create ⟨"memory", none⟩ [⟨"memory:/memories/a/b", "x", none⟩] "/memories/a" "y").1
          "/memories/a").1 "/memories/a" = Except.ok PathKind.Directory ∧
    PathKind.Directory ≠ PathKind.Absent := by
  refine ⟨rfl, rfl, rfl, by decide⟩

/-- C5 (amended): for a valid path, `create` fails with the already-exists
error exactly when an entry exists at the exact encoded key (in which case the
store is unchanged); after a successful `create` the path classifies as
`File`; and — provided the path had no descendant entries — after a subsequent
successful `delete` it classifies as `Absent`. -/
theorem c5_create_delete_lifecycle (cfg : Config) (s : Store) (p t key : String)
    (hk : pathToKey cfg p = Except.ok key) :
    ((create cfg s p t).2 = Except.error ("File already exists: " ++ p) ↔
      redisExists s key = true) ∧
    (redisExists s key = true → (create cfg s p t).1 = s) ∧
    (redisExists s key = false →
      (create cfg s p t).2 = Except.ok ("File created successfully at " ++ p) ∧
      classify cfg (create cfg s p t).1 p = Except.ok PathKind.File ∧
      ((redisKeysPrefix s (key ++ "/")).isEmpty = true →
        ∀ m, (delete cfg (create cfg s p t).1 p).2 = Except.ok m →
          classify cfg (delete cfg (create cfg s p t).1 p).1 p =
            Except.ok PathKind.Absent)) := by
  by_cases hex : redisExists s key = true
  · rw [create_err hk hex]
    refine ⟨⟨fun _ => hex, fun _ => rfl⟩, fun _ => rfl, fun hfalse => ?_⟩
    rw [hex] at hfalse
    exact absurd hfalse (by simp)
  · have hex' : redisExists s key = false := by
      cases hx : redisExists s key with
      | false => rfl
      | true => exact absurd hx hex
    have hfst : (create cfg s p t).1 = setWithTtl cfg s key t := by
      rw [create_ok hk hex']
    have hsnd : (create cfg s p t).2 = Except.ok ("File created successfully at " ++ p) := by
      rw [create_ok hk hex']
    have hex1 : redisExists (setWithTtl cfg s key t) key = true := by
      rw [redisExists_eq_isSome, lookup_setWithTtl_self]
      rfl
    refine ⟨⟨fun h => ?_, fun h => absurd h hex⟩,
      fun h => absurd h hex, fun _ => ⟨hsnd, ?_, ?_⟩⟩
    · rw [hsnd] at h
      exact absurd h (by simp)
    · rw [classify_eq hk, hfst, hex1, if_pos rfl]
    · intro hempty m hdel
      by_cases hr : p = "/memories"
      · rw [hfst] at hdel
        have hD : (delete cfg (setWithTtl cfg s key t) p).2 =
            Except.error "Cannot delete the /memories directory itself" := by
          unfold delete
          rw [if_pos hr]
        rw [hD] at hdel
        exact absurd hdel (by simp)
      · have hdelfst : (delete cfg (create cfg s p t).1 p).1 =
            redisDel (setWithTtl cfg s key t) key := by
          rw [hfst, delete_file_eq hr hk hex1]
        rw [classify_eq hk, hdelfst]
        have h1 : redisExists (redisDel (setWithTtl cfg s key t) key) key = false := by
          rw [redisExists_eq_isSome, lookup_redisDel_self]
          rfl
        rw [h1]
        have h2 : redisKeysPrefix (redisDel (setWithTtl cfg s key t) key) (key ++ "/") = [] :=
          scan_after_create_delete cfg (List.isEmpty_iff.1 hempty)
        rw [h2]
        rfl

/-- Witness for the amended C5 on the empty store. -/
theorem c5_create_delete_lifecycle_witness :
    (create ⟨"memory", none⟩ [] "/memories/f" "x").2 =
      Except.ok "File created successfully at /memories/f" ∧
    classify ⟨"memory", none⟩ (create ⟨"memory", none⟩ [] "/memories/f" "x").1 "/memories/f" =
      Except.ok PathKind.File ∧
    classify ⟨"memory", none⟩
        (delete ⟨"memory", none⟩ (create ⟨"memory", none⟩ [] "/memories/f" "x").1
          "/memories/f").1 "/memories/f" = Except.ok PathKind.Absent := by
  have h := (c5_create_delete_lifecycle ⟨"memory", none⟩ [] "/memories/f" "x"
    "memory:/memories/f" rfl).2.2 rfl
  exact ⟨h.1, h.2.1, h.2.2 rfl "File deleted: /memories/f" rfl⟩

/-- C10: on a path that currently classifies as a directory (it has at least
one descendant entry) but has no entry at its exact key, `create` succeeds,
stores the text at the exact key, leaves the descendant scan unchanged and
non-empty, and the path then classifies as `File` while still having
descendants — a simultaneous file/directory through the public interface. -/
theorem c10_create_on_directory (cfg : Config) (s : Store) (p t key : String)
    (hk : pathToKey cfg p = Except.ok key)
    (hex : redisExists s key = false)
    (hdir : (redisKeysPrefix s (key ++ "/")).isEmpty = false) :
    (create cfg s p t).2 = Except.ok ("File created successfully at " ++ p) ∧
    redisGet (create cfg s p t).1 key = some t ∧
    redisKeysPrefix (create cfg s p t).1 (key ++ "/") = redisKeysPrefix s (key ++ "/") ∧
    (redisKeysPrefix (create cfg s p t).1 (key ++ "/")).isEmpty = false ∧
    classify cfg (create cfg s p t).1 p = Except.ok PathKind.File := by
  have hfst : (create cfg s p t).1 = setWithTtl cfg s key t := by
    rw [create_ok hk hex]
  have hsnd : (create cfg s p t).2 = Except.ok ("File created successfully at " ++ p) := by
    rw [create_ok hk hex]
  have hex1 : redisExists (setWithTtl cfg s key t) key = true := by
    rw [redisExists_eq_isSome, lookup_setWithTtl_self]
    rfl
  refine ⟨hsnd, ?_, ?_, ?_, ?_⟩
  · rw [hfst, redisGet_eq_map, lookup_setWithTtl_self]
    rfl
  · rw [hfst]
    exact redisKeysPrefix_setWithTtl_self cfg s key t
  · rw [hfst, redisKeysPrefix_setWithTtl_self]
    exact hdir
  · rw [classify_eq hk, hfst, hex1, if_pos rfl]

/-- Witness for C10: `/memories/a` below which `/memories/a/b` exists. -/
theorem c10_create_on_directory_witness :
    (create ⟨"memory", none⟩ [⟨"memory:/memories/a/b", "x", none⟩] "/memories/a" "y").2 =
      Except.ok "File created successfully at /memories/a" ∧
    redisGet (create ⟨"memory", none⟩ [⟨"memory:/memories/a/b", "x", none⟩]
      "/memories/a" "y").1 "memory:/memories/a" = some "y" ∧
    (redisKeysPrefix (create ⟨"memory", none⟩ [⟨"memory:/memories/a/b", "x", none⟩]
      "/memories/a" "y").1 ("memory:/memories/a" ++ "/")).isEmpty = false ∧
    classify ⟨"memory", none⟩ (create ⟨"memory", none⟩ [⟨"memory:/memories/a/b", "x", none⟩]
      "/memories/a" "y").1 "/memories/a" = Except.ok PathKind.File := by
  have h := c10_create_on_directory ⟨"memory", none⟩ [⟨"memory:/memories/a/b", "x", none⟩]
    "/memories/a" "y" "memory:/memories/a" rfl rfl rfl
  exact ⟨h.1, h.2.1, h.2.2.2.1, h.2.2.2.2⟩

/-- Counterexample to C6 as stated: the code left-pads the line number with
spaces to 4 columns (right-aligned), producing `"   1: hi"`, while the
rendering literally described by the claim — the number right-padded to 4
columns — would be `"1   : hi"`; the two differ. Moreover, for the root path
`/memories` (a valid path) a successful `create` is followed by a `view` that
returns the directory listing, not the stored lines. -/
theorem c6_counterexample :
    (view ⟨"memory", none⟩ (create ⟨"memory", none⟩ [] "/memories/f" "hi").1
      "/memories/f" none).2 = Except.ok "   1: hi" ∧
    padRight (toString 1) 4 ++ ": " ++ "hi" = "1   : hi" ∧
    ("   1: hi" : String) ≠ "1   : hi" ∧
    (create ⟨"memory", none⟩ [] "/memories" "hi").2 =
      Except.ok "File created successfully at /memories" ∧
    (view ⟨"memory", none⟩ (create ⟨"memory", none⟩ [] "/memories" "hi").1
      "/memories" none).2 = Except.ok "Directory: /memories\n(empty)" := by
  refine ⟨?_, rfl, by decide, rfl, rfl⟩
  have h1 : (create ⟨"memory", none⟩ [] "/memories/f" "hi").1 =
      [⟨"memory:/memories/f", "hi", none⟩] := rfl
  rw [h1]
  have hc : redisGet [(⟨"memory:/memories/f", "hi", none⟩ : Entry)] "memory:/memories/f" =
      some "hi" := rfl
  rw [view_file_none_eq (by decide)
    (show pathToKey ⟨"memory", none⟩ "/memories/f" = Except.ok "memory:/memories/f" from rfl) hc]
  have hl : linesOf "hi" = ["hi"] := by
    simp [linesOf, splitNE, pfxOfL]
  have hr : renderAll "hi" = "   1: hi" := by
    rw [renderAll, hl]
    rfl
  rw [show ((refreshTtl ⟨"memory", none⟩ [(⟨"memory:/memories/f", "hi", none⟩ : Entry)]
      "memory:/memories/f" : Store), Except.ok (renderAll "hi")).2 = Except.ok (renderAll "hi")
    from rfl, hr]

/-- C6 (amended): for every valid non-root path, `create` then `view` with no
range returns exactly the lines of the stored text in order, numbered
consecutively from 1, each line rendered as its number left-padded with
spaces to 4 columns (right-aligned), then a colon and a space, then the line
text. -/
theorem c6_create_view_lines (cfg : Config) (s : Store) (p t key : String)
    (hroot : p ≠ "/memories")
    (hk : pathToKey cfg p = Except.ok key)
    (hex : redisExists s key = false) :
    (view cfg (create cfg s p t).1 p none).2 = Except.ok (renderAll t) ∧
    renderAll t = joinWith "\n"
      ((linesOf t).enum.map (fun pr => padLeft (toString (pr.1 + 1)) 4 ++ ": " ++ pr.2)) := by
  constructor
  · rw [create_ok hk hex]
    have hc : redisGet (setWithTtl cfg s key t) key = some t := by
      rw [redisGet_eq_map, lookup_setWithTtl_self]
      rfl
    rw [show ((setWithTtl cfg s key t : Store),
        Except.ok ("File created successfully at " ++ p)).1 = setWithTtl cfg s key t from rfl]
    rw [view_file_none_eq hroot hk hc]
  · rfl

/-- Witness for the amended C6 on a two-line text. -/
theorem c6_create_view_lines_witness :
    (view ⟨"memory", none⟩ (create ⟨"memory", none⟩ [] "/memories/f" "hi\nworld").1
      "/memories/f" none).2 = Except.ok (renderAll "hi\nworld") :=
  (c6_create_view_lines ⟨"memory", none⟩ [] "/memories/f" "hi\nworld"
    "memory:/memories/f" (by decide) rfl rfl).1

/-- C7: on an existing file with `n` lines, `insert` fails with the
invalid-range error exactly when the requested line index is negative or
greater than `n` (leaving the store unchanged); otherwise it succeeds and
rewrites the file as the lines before the index, the inserted text with one
trailing newline stripped as a new line, and the remaining lines in order. -/
theorem c7_insert_spec (cfg : Config) (s : Store) (p text key content : String) (i : Int)
    (hk : pathToKey cfg p = Except.ok key)
    (hc : redisGet s key = some content) :
    ((insert cfg s p i text).2 =
        Except.error ("Invalid insert_line " ++ toString i ++ ". Must be 0-" ++
          toString (linesOf content).length) ↔
      (i < 0 ∨ ((linesOf content).length : Int) < i)) ∧
    ((i < 0 ∨ ((linesOf content).length : Int) < i) → (insert cfg s p i text).1 = s) ∧
    (0 ≤ i → i ≤ ((linesOf content).length : Int) →
      (insert cfg s p i text).2 =
        Except.ok ("Text inserted at line " ++ toString i ++ " in " ++ p) ∧
      redisGet (insert cfg s p i text).1 key =
        some (joinWith "\n" ((linesOf content).take i.toNat ++ [stripTrailingNl text] ++
          (linesOf content).drop i.toNat))) := by
  by_cases hcond : i < 0 ∨ ((linesOf content).length : Int) < i
  · rw [insert_err_eq hk hc hcond]
    refine ⟨⟨fun _ => hcond, fun _ => rfl⟩, fun _ => rfl, fun h0 hn => ?_⟩
    rcases hcond with h | h
    · omega
    · omega
  · have h0 : 0 ≤ i := by omega
    have hn : i ≤ ((linesOf content).length : Int) := by omega
    rw [insert_ok_eq hk hc h0 hn]
    refine ⟨⟨fun h => absurd h (by simp), fun h => absurd h hcond⟩,
      fun h => absurd h hcond, fun _ _ => ⟨rfl, ?_⟩⟩
    rw [redisGet_eq_map, lookup_setWithTtl_self]
    rfl

/-- Witness for C7: inserting `"X"` at line 0 of a three-line file. -/
theorem c7_insert_spec_witness :
    (insert ⟨"memory", none⟩ [⟨"memory:/memories/f", "a\nb\nc", none⟩] "/memories/f" 0 "X").2 =
      Except.ok "Text inserted at line 0 in /memories/f" ∧
    redisGet (insert ⟨"memory", none⟩ [⟨"memory:/memories/f", "a\nb\nc", none⟩]
        "/memories/f" 0 "X").1 "memory:/memories/f" =
      some (joinWith "\n" ((linesOf "a\nb\nc").take (Int.toNat 0) ++ [stripTrailingNl "X"] ++
        (linesOf "a\nb\nc").drop (Int.toNat 0))) :=
  (c7_insert_spec ⟨"memory", none⟩ [⟨"memory:/memories/f", "a\nb\nc", none⟩] "/memories/f"
    "X" "memory:/memories/f" "a\nb\nc" 0 rfl rfl).2.2 (by omega)
    (Int.natCast_nonneg (linesOf "a\nb\nc").length)

/-- Counterexample to C2 as stated: with content `"x"`, oldStr `"x"` and
newStr `"$$"`, the call succeeds (count is 1) but the stored content becomes
`"$"`, not `"$$"`: JavaScript `String.replace` interprets `$$` in the
replacement string, so the single occurrence is not replaced by `newStr`
verbatim. -/
theorem c2_counterexample :
    (str_replace ⟨"memory", none⟩ [⟨"memory:/memories/f", "x", none⟩]
      "/memories/f" "x" "$$").2 = Except.ok "File /memories/f has been edited" ∧
    redisGet (str_replace ⟨"memory", none⟩ [⟨"memory:/memories/f", "x", none⟩]
      "/memories/f" "x" "$$").1 "memory:/memories/f" = some "$" ∧
    ("$" : String) ≠ "$$" := by
  have h1 : strReplaceCount "x" "x" = 1 := by
    simp [strReplaceCount, jsSplitL, splitNE, pfxOfL]
  have hred := @str_replace_one_eq ⟨"memory", none⟩ [⟨"memory:/memories/f", "x", none⟩]
    "/memories/f" "x" "$$" "memory:/memories/f" "x" rfl rfl h1
  have hfst : (str_replace ⟨"memory", none⟩ [⟨"memory:/memories/f", "x", none⟩]
      "/memories/f" "x" "$$").1 =
      setWithTtl ⟨"memory", none⟩ [⟨"memory:/memories/f", "x", none⟩]
        "memory:/memories/f" (jsReplace "x" "x" "$$") := by
    rw [hred]
  have hsnd : (str_replace ⟨"memory", none⟩ [⟨"memory:/memories/f", "x", none⟩]
      "/memories/f" "x" "$$").2 = Except.ok "File /memories/f has been edited" := by
    rw [hred]
    rfl
  have hj : jsReplace "x" "x" "$$" = "$" := by
    simp [jsReplace, jsReplaceL, splitNE, substL, intercalateL, pfxOfL]
  refine ⟨hsnd, ?_, by decide⟩
  rw [hfst, redisGet_eq_map, lookup_setWithTtl_self]
  simp [hj]

/-- C2 (amended): on an existing file, `str_replace` computes its count as
the number of split parts minus one — which equals the number of
non-overlapping occurrences of `oldStr` whenever `oldStr` is non-empty —
fails with the not-found error when the count is 0 and with the
ambiguous-match error when it exceeds 1, leaving the store unchanged in both
cases; when the count is exactly 1, the content is rewritten with the single
occurrence replaced by `newStr` interpreted under JavaScript replacement
semantics (the `$$`, `$&`, dollar-backquote and dollar-quote patterns are
expanded); when `newStr` contains no `$`, the occurrence is replaced by
`newStr` verbatim. -/
theorem c2_str_replace_spec (cfg : Config) (s : Store) (p o n key content : String)
    (hk : pathToKey cfg p = Except.ok key)
    (hc : redisGet s key = some content) :
    (∀ o0 or, o.data = o0 :: or →
      strReplaceCount content o = (countOccs o0 or content.data : Int)) ∧
    (strReplaceCount content o = 0 →
      str_replace cfg s p o n = (s, Except.error ("Text not found in " ++ p))) ∧
    (strReplaceCount content o > 1 →
      str_replace cfg s p o n =
        (s, Except.error ("Text appears " ++ toString (strReplaceCount content o) ++
          " times in " ++ p ++ ". Must be unique."))) ∧
    (strReplaceCount content o = 1 →
      (str_replace cfg s p o n).2 = Except.ok ("File " ++ p ++ " has been edited") ∧
      redisGet (str_replace cfg s p o n).1 key = some (jsReplace content o n) ∧
      (∀ o0 or, o.data = o0 :: or →
        ∃ pre post : List Char,
          content.data = pre ++ o.data ++ post ∧
          (jsReplace content o n).data = pre ++ substL pre o.data post n.data ++ post ∧
          ('$' ∉ n.data →
            (jsReplace content o n).data = pre ++ n.data ++ post))) := by
  refine ⟨?_, fun h0 => str_replace_notfound_eq hk hc h0,
    fun h1 => str_replace_many_eq hk hc h1, fun h1 => ?_⟩
  · intro o0 or ho
    unfold strReplaceCount
    rw [ho, jsSplitL_cons, splitNE_length]
    push_cast
    omega
  · have hred := @str_replace_one_eq cfg s p o n key content hk hc h1
    have hfst : (str_replace cfg s p o n).1 = setWithTtl cfg s key (jsReplace content o n) := by
      rw [hred]
    have hsnd : (str_replace cfg s p o n).2 =
        Except.ok ("File " ++ p ++ " has been edited") := by
      rw [hred]
    refine ⟨hsnd, ?_, ?_⟩
    · rw [hfst, redisGet_eq_map, lookup_setWithTtl_self]
      rfl
    · intro o0 or ho
      have hlen : (splitNE o0 or content.data).length = 2 := by
        unfold strReplaceCount at h1
        rw [ho, jsSplitL_cons] at h1
        omega
      obtain ⟨p0, p1, hsplit⟩ := List.length_eq_two.1 hlen
      have hdata : (jsReplace content o n).data = jsReplaceL content.data o.data n.data := rfl
      refine ⟨p0, p1, ?_, ?_, ?_⟩
      · have hi := intercalateL_splitNE o0 or content.data
        rw [hsplit] at hi
        have h2 : intercalateL (o0 :: or) [p0, p1] = p0 ++ (o0 :: or) ++ p1 := rfl
        rw [h2] at hi
        rw [ho, ← hi]
      · rw [hdata, ho, jsReplaceL_two hsplit]
      · intro hnd
        rw [hdata, ho, jsReplaceL_two hsplit, substL_no_dollar _ _ _ _ hnd]

theorem rename_dir_eq {cfg : Config} {s : Store} {oldPath newPath oldKey newKey : String}
    (hok : pathToKey cfg oldPath = Except.ok oldKey)
    (hnk : pathToKey cfg newPath = Except.ok newKey)
    (hget : redisGet s oldKey = none)
    (hne : redisKeysPrefix s (oldKey ++ "/") ≠ []) :
    rename cfg s oldPath newPath =
      (match renameConflict s oldKey newKey (redisKeysPrefix s (oldKey ++ "/")) with
       | some rel => (s, Except.error ("Destination already exists: " ++ newPath ++ rel))
       | none => (renameMove cfg oldKey newKey (redisKeysPrefix s (oldKey ++ "/")) s,
           Except.ok ("Renamed " ++ oldPath ++ " to " ++ newPath))) := by
  have hE : (redisKeysPrefix s (oldKey ++ "/")).isEmpty = false := by
    cases hx : redisKeysPrefix s (oldKey ++ "/") with
    | nil => exact absurd hx hne
    | cons a l => rfl
  unfold rename
  rw [hok, hnk]
  simp only []
  rw [hget]
  simp only [hE, Bool.false_eq_true, if_false]

/-- Witness for the amended C2: replacing the unique `"x"` in `"axb"` by
`"y"`. -/
theorem c2_str_replace_spec_witness :
    (str_replace ⟨"memory", none⟩ [⟨"memory:/memories/f", "axb", none⟩]
      "/memories/f" "x" "y").2 = Except.ok ("File " ++ "/memories/f" ++ " has been edited") ∧
    redisGet (str_replace ⟨"memory", none⟩ [⟨"memory:/memories/f", "axb", none⟩]
      "/memories/f" "x" "y").1 "memory:/memories/f" = some (jsReplace "axb" "x" "y") := by
  have h := (c2_str_replace_spec ⟨"memory", none⟩ [⟨"memory:/memories/f", "axb", none⟩]
    "/memories/f" "x" "y" "memory:/memories/f" "axb" rfl rfl).2.2.2
    (by simp [strReplaceCount, jsSplitL, splitNE, pfxOfL])
  exact ⟨h.1, h.2.1⟩

theorem mem_setWithTtl {cfg : Config} {s : Store} {k v : String} {e : Entry}
    (h : e ∈ setWithTtl cfg s k v) : e ∈ s ∨ e = ⟨k, v, ttlMark cfg⟩ := by
  rw [setWithTtl_eq] at h
  rcases List.mem_append.1 h with h1 | h2
  · exact Or.inl (List.mem_of_mem_filter h1)
  · right
    simpa using h2

theorem ttlNone_mark {cfg : Config} (hn : cfg.ttl = none) : ttlMark cfg = none := by
  unfold ttlMark
  rw [hn]

theorem ttlNone_setWithTtl {cfg : Config} {s : Store} {k v : String} (hn : cfg.ttl = none)
    (h : ∀ e ∈ s, e.ttl = none) : ∀ e ∈ setWithTtl cfg s k v, e.ttl = none := by
  intro e he
  rcases mem_setWithTtl he with h1 | h2
  · exact h e h1
  · rw [h2]
    exact ttlNone_mark hn

theorem ttlNone_filter {s : Store} (q : Entry → Bool) (h : ∀ e ∈ s, e.ttl = none) :
    ∀ e ∈ s.filter q, e.ttl = none :=
  fun e he => h e (List.mem_of_mem_filter he)

theorem ttlNone_renameMove {cfg : Config} {oldKey newKey : String} (hn : cfg.ttl = none) :
    ∀ (ks : List String) (s : Store), (∀ e ∈ s, e.ttl = none) →
      ∀ e ∈ renameMove cfg oldKey newKey ks s, e.ttl = none := by
  intro ks
  induction ks with
  | nil => intro s h e he; exact h e he
  | cons k rest ih =>
    intro s h e he
    cases hg : redisGet s k with
    | some v =>
      have hmv : renameMove cfg oldKey newKey (k :: rest) s =
          renameMove cfg oldKey newKey rest
            (redisDel (setWithTtl cfg s (newKey ++ sliceFrom k (strLen oldKey)) v) k) := by
        simp only [renameMove]
        rw [hg]
      rw [hmv] at he
      exact ih _ (ttlNone_filter _ (ttlNone_setWithTtl hn h)) e he
    | none =>
      have hmv : renameMove cfg oldKey newKey (k :: rest) s =
          renameMove cfg oldKey newKey rest s := by
        simp only [renameMove]
        rw [hg]
      rw [hmv] at he
      exact ih s h e he

theorem rename_file_eq {cfg : Config} {s : Store} {oldPath newPath oldKey newKey content : String}
    (hok : pathToKey cfg oldPath = Except.ok oldKey)
    (hnk : pathToKey cfg newPath = Except.ok newKey)
    (hget : redisGet s oldKey = some content) (hex : redisExists s newKey = false) :
    rename cfg s oldPath newPath =
      (redisDel (setWithTtl cfg s newKey content) oldKey,
        Except.ok ("Renamed " ++ oldPath ++ " to " ++ newPath)) := by
  unfold rename
  rw [hok, hnk]
  simp only []
  rw [hget]
  simp [hex]

theorem delete_dir_eq {cfg : Config} {s : Store} {p key : String}
    (hroot : p ≠ "/memories") (hk : pathToKey cfg p = Except.ok key)
    (hex : redisExists s key = false)
    (hne : redisKeysPrefix s (key ++ "/") ≠ []) :
    delete cfg s p =
      (redisDelBatch s (redisKeysPrefix s (key ++ "/")),
        Except.ok ("Directory deleted: " ++ p)) := by
  have hE : (redisKeysPrefix s (key ++ "/")).isEmpty = false := by
    cases hx : redisKeysPrefix s (key ++ "/") with
    | nil => exact absurd hx hne
    | cons a l => rfl
  unfold delete
  rw [if_neg hroot, hk]
  simp only [hex, Bool.false_eq_true, if_false, hE]

theorem view_fst_no_ttl (cfg : Config) (s : Store) (p : String) (r : Option (List Int))
    (hn : cfg.ttl = none) : (view cfg s p r).1 = s := by
  by_cases hroot : p = "/memories"
  · subst hroot
    exact view_root_fst cfg s r
  · cases hpk : pathToKey cfg p with
    | error e =>
      unfold view
      rw [if_neg hroot, hpk]
    | ok key =>
      cases hg : redisGet s key with
      | some content =>
        rw [view_file_fst hroot hpk hg r]
        unfold refreshTtl
        rw [hn]
      | none => exact view_dir_fst hroot hpk hg r

theorem str_replace_write_eq {cfg : Config} {s : Store} {p o n key content : String}
    (hk : pathToKey cfg p = Except.ok key) (hc : redisGet s key = some content)
    (h0 : ¬ strReplaceCount content o = 0) (h1 : ¬ strReplaceCount content o > 1) :
    str_replace cfg s p o n =
      (setWithTtl cfg s key (jsReplace content o n),
        Except.ok ("File " ++ p ++ " has been edited")) := by
  unfold str_replace
  rw [hk]
  simp only []
  rw [hc]
  simp [h0, h1]

theorem ttlNone_create {cfg : Config} {s : Store} {p t : String} (hn : cfg.ttl = none)
    (h : ∀ e ∈ s, e.ttl = none) : ∀ e ∈ (create cfg s p t).1, e.ttl = none := by
  cases hpk : pathToKey cfg p with
  | error e1 =>
    have hfst : (create cfg s p t).1 = s := by
      unfold create
      rw [hpk]
    rw [hfst]
    exact h
  | ok key =>
    by_cases hex : redisExists s key = true
    · have hfst : (create cfg s p t).1 = s := by
        rw [create_err hpk hex]
      rw [hfst]
      exact h
    · have hex' : redisExists s key = false := by
        cases hx : redisExists s key with
        | false => rfl
        | true => exact absurd hx hex
      have hfst : (create cfg s p t).1 = setWithTtl cfg s key t := by
        rw [create_ok hpk hex']
      rw [hfst]
      exact ttlNone_setWithTtl hn h

theorem ttlNone_str_replace {cfg : Config} {s : Store} {p o n : String} (hn : cfg.ttl = none)
    (h : ∀ e ∈ s, e.ttl = none) : ∀ e ∈ (str_replace cfg s p o n).1, e.ttl = none := by
  cases hpk : pathToKey cfg p with
  | error e1 =>
    have hfst : (str_replace cfg s p o n).1 = s := by
      unfold str_replace
      rw [hpk]
    rw [hfst]
    exact h
  | ok key =>
    cases hg : redisGet s key with
    | none =>
      have hfst : (str_replace cfg s p o n).1 = s := by
        unfold str_replace
        rw [hpk]
        simp only []
        rw [hg]
      rw [hfst]
      exact h
    | some content =>
      by_cases h0 : strReplaceCount content o = 0
      · have hfst : (str_replace cfg s p o n).1 = s := by
          rw [str_replace_notfound_eq hpk hg h0]
        rw [hfst]
        exact h
      · by_cases h1 : strReplaceCount content o > 1
        · have hfst : (str_replace cfg s p o n).1 = s := by
            rw [str_replace_many_eq hpk hg h1]
          rw [hfst]
          exact h
        · have hfst : (str_replace cfg s p o n).1 =
              setWithTtl cfg s key (jsReplace content o n) := by
            rw [str_replace_write_eq hpk hg h0 h1]
          rw [hfst]
          exact ttlNone_setWithTtl hn h

theorem ttlNone_insert {cfg : Config} {s : Store} {p text : String} {i : Int}
    (hn : cfg.ttl = none) (h : ∀ e ∈ s, e.ttl = none) :
    ∀ e ∈ (insert cfg s p i text).1, e.ttl = none := by
  cases hpk : pathToKey cfg p with
  | error e1 =>
    have hfst : (insert cfg s p i text).1 = s := by
      unfold insert
      rw [hpk]
    rw [hfst]
    exact h
  | ok key =>
    cases hg : redisGet s key with
    | none =>
      have hfst : (insert cfg s p i text).1 = s := by
        unfold insert
        rw [hpk]
        simp only []
        rw [hg]
      rw [hfst]
      exact h
    | some content =>
      by_cases hcond : i < 0 ∨ ((linesOf content).length : Int) < i
      · have hfst : (insert cfg s p i text).1 = s := by
          rw [insert_err_eq hpk hg hcond]
        rw [hfst]
        exact h
      · have h0 : 0 ≤ i := by omega
        have h1 : i ≤ ((linesOf content).length : Int) := by omega
        have hfst : (insert cfg s p i text).1 = setWithTtl cfg s key
            (joinWith "\n" ((linesOf content).take i.toNat ++ [stripTrailingNl text] ++
              (linesOf content).drop i.toNat)) := by
          rw [insert_ok_eq hpk hg h0 h1]
        rw [hfst]
        exact ttlNone_setWithTtl hn h

theorem ttlNone_delete {cfg : Config} {s : Store} {p : String}
    (h : ∀ e ∈ s, e.ttl = none) : ∀ e ∈ (delete cfg s p).1, e.ttl = none := by
  by_cases hroot : p = "/memories"
  · have hfst : (delete cfg s p).1 = s := by
      unfold delete
      rw [if_pos hroot]
    rw [hfst]
    exact h
  · cases hpk : pathToKey cfg p with
    | error e1 =>
      have hfst : (delete cfg s p).1 = s := by
        unfold delete
        rw [if_neg hroot, hpk]
      rw [hfst]
      exact h
    | ok key =>
      by_cases hex : redisExists s key = true
      · have hfst : (delete cfg s p).1 = redisDel s key := by
          rw [delete_file_eq hroot hpk hex]
        rw [hfst]
        exact ttlNone_filter _ h
      · have hex' : redisExists s key = false := by
          cases hx : redisExists s key with
          | false => rfl
          | true => exact absurd hx hex
        by_cases hne : redisKeysPrefix s (key ++ "/") = []
        · have hfst : (delete cfg s p).1 = s := by
            unfold delete
            rw [if_neg hroot, hpk]
            simp only [hex', Bool.false_eq_true, if_false, hne]
            rfl
          rw [hfst]
          exact h
        · have hfst : (delete cfg s p).1 =
              redisDelBatch s (redisKeysPrefix s (key ++ "/")) := by
            rw [delete_dir_eq hroot hpk hex' hne]
          rw [hfst]
          exact ttlNone_filter _ h

theorem ttlNone_rename {cfg : Config} {s : Store} {a b : String} (hn : cfg.ttl = none)
    (h : ∀ e ∈ s, e.ttl = none) : ∀ e ∈ (rename cfg s a b).1, e.ttl = none := by
  cases hok : pathToKey cfg a with
  | error e1 =>
    have hfst : (rename cfg s a b).1 = s := by
      unfold rename
      rw [hok]
    rw [hfst]
    exact h
  | ok oldKey =>
    cases hnk : pathToKey cfg b with
    | error e1 =>
      have hfst : (rename cfg s a b).1 = s := by
        unfold rename
        rw [hok]
        simp only []
        rw [hnk]
      rw [hfst]
      exact h
    | ok newKey =>
      cases hg : redisGet s oldKey with
      | some content =>
        by_cases hex : redisExists s newKey = true
        · have hfst : (rename cfg s a b).1 = s := by
            unfold rename
            rw [hok]
            simp only []
            rw [hnk]
            simp only []
            rw [hg]
            simp [hex]
          rw [hfst]
          exact h
        · have hex' : redisExists s newKey = false := by
            cases hx : redisExists s newKey with
            | false => rfl
            | true => exact absurd hx hex
          have hfst : (rename cfg s a b).1 =
              redisDel (setWithTtl cfg s newKey content) oldKey := by
            rw [rename_file_eq hok hnk hg hex']
          rw [hfst]
          exact ttlNone_filter _ (ttlNone_setWithTtl hn h)
      | none =>
        by_cases hne : redisKeysPrefix s (oldKey ++ "/") = []
        · have hfst : (rename cfg s a b).1 = s := by
            unfold rename
            rw [hok]
            simp only []
            rw [hnk]
            simp only []
            rw [hg]
            simp only [hne]
            rfl
          rw [hfst]
          exact h
        · have hred := rename_dir_eq hok hnk hg hne
          cases hcf : renameConflict s oldKey newKey (redisKeysPrefix s (oldKey ++ "/")) with
          | some rel =>
            rw [hcf] at hred
            have hfst : (rename cfg s a b).1 = s := by
              rw [hred]
            rw [hfst]
            exact h
          | none =>
            rw [hcf] at hred
            have hfst : (rename cfg s a b).1 =
                renameMove cfg oldKey newKey (redisKeysPrefix s (oldKey ++ "/")) s := by
              rw [hred]
            rw [hfst]
            exact ttlNone_renameMove hn _ s h

/-- C1: for a directory rename (source has no exact entry and at least one
descendant), if any descendant's mapped destination key already exists the
whole operation fails with the conflict error and returns the store exactly
as it was (the pre-flight loop performs only existence checks); when every
destination key is absent it succeeds, deleting every scanned source key,
writing each descendant's content at its mapped destination (with the TTL
mark), and touching no other key. -/
theorem c1_rename_dir_atomic :
    (∀ (cfg : Config) (s : Store) (oldPath newPath oldKey newKey : String),
      pathToKey cfg oldPath = Except.ok oldKey →
      pathToKey cfg newPath = Except.ok newKey →
      redisGet s oldKey = none →
      redisKeysPrefix s (oldKey ++ "/") ≠ [] →
      (∃ k ∈ redisKeysPrefix s (oldKey ++ "/"),
        redisExists s (mappedDest oldKey newKey k) = true) →
      (rename cfg s oldPath newPath).1 = s ∧
      ∃ rel, (rename cfg s oldPath newPath).2 =
        Except.error ("Destination already exists: " ++ newPath ++ rel)) ∧
    (∀ (cfg : Config) (s : Store) (oldPath newPath oldKey newKey : String),
      StoreWF s →
      pathToKey cfg oldPath = Except.ok oldKey →
      pathToKey cfg newPath = Except.ok newKey →
      redisGet s oldKey = none →
      redisKeysPrefix s (oldKey ++ "/") ≠ [] →
      (∀ k ∈ redisKeysPrefix s (oldKey ++ "/"),
        redisExists s (mappedDest oldKey newKey k) = false) →
      (rename cfg s oldPath newPath).2 =
        Except.ok ("Renamed " ++ oldPath ++ " to " ++ newPath) ∧
      (∀ k ∈ redisKeysPrefix s (oldKey ++ "/"),
        redisGet (rename cfg s oldPath newPath).1 k = none) ∧
      (∀ k ∈ redisKeysPrefix s (oldKey ++ "/"), ∀ v, redisGet s k = some v →
        lookup (rename cfg s oldPath newPath).1 (mappedDest oldKey newKey k) =
          some ⟨mappedDest oldKey newKey k, v, ttlMark cfg⟩) ∧
      (∀ q, q ∉ redisKeysPrefix s (oldKey ++ "/") →
        (∀ k ∈ redisKeysPrefix s (oldKey ++ "/"), q ≠ mappedDest oldKey newKey k) →
        lookup (rename cfg s oldPath newPath).1 q = lookup s q)) := by
  constructor
  · intro cfg s oldPath newPath oldKey newKey hok hnk2 hget hne hconf
    have hred := rename_dir_eq hok hnk2 hget hne
    obtain ⟨rel, hrel⟩ := renameConflict_some_of_exists hconf
    rw [hrel] at hred
    exact ⟨by rw [hred], rel, by rw [hred]⟩
  · intro cfg s oldPath newPath oldKey newKey hwf hok hnk2 hget hne hnoconf
    have hcn : renameConflict s oldKey newKey (redisKeysPrefix s (oldKey ++ "/")) = none :=
      (renameConflict_none_iff s oldKey newKey _).2 hnoconf
    have hred := rename_dir_eq hok hnk2 hget hne
    rw [hcn] at hred
    have hnd := redisKeysPrefix_nodup hwf (oldKey ++ "/")
    have hsome : ∀ k ∈ redisKeysPrefix s (oldKey ++ "/"), (lookup s k).isSome = true :=
      fun k hk => exists_of_mem_redisKeysPrefix hk
    have hdst : ∀ k ∈ redisKeysPrefix s (oldKey ++ "/"),
        lookup s (mappedDest oldKey newKey k) = none :=
      fun k hk => (redisExists_false_iff s _).1 (hnoconf k hk)
    have hinj : ∀ k1 ∈ redisKeysPrefix s (oldKey ++ "/"),
        ∀ k2 ∈ redisKeysPrefix s (oldKey ++ "/"),
        mappedDest oldKey newKey k1 = mappedDest oldKey newKey k2 → k1 = k2 :=
      fun k1 h1 k2 h2 heq =>
        mappedDest_inj (hasPfx_of_mem_redisKeysPrefix h1)
          (hasPfx_of_mem_redisKeysPrefix h2) heq
    have hnk' : ∀ k1 ∈ redisKeysPrefix s (oldKey ++ "/"),
        ∀ k2 ∈ redisKeysPrefix s (oldKey ++ "/"), mappedDest oldKey newKey k1 ≠ k2 := by
      intro k1 h1 k2 h2 heq
      have hd := hdst k1 h1
      rw [heq] at hd
      have hs := hsome k2 h2
      rw [hd] at hs
      simp at hs
    obtain ⟨A, B, C⟩ := renameMove_spec cfg oldKey newKey
      (redisKeysPrefix s (oldKey ++ "/")) s hnd hsome hdst hinj hnk'
    have hfst : (rename cfg s oldPath newPath).1 =
        renameMove cfg oldKey newKey (redisKeysPrefix s (oldKey ++ "/")) s := by
      rw [hred]
    refine ⟨by rw [hred], ?_, ?_, ?_⟩
    · intro k hk
      rw [hfst, redisGet_eq_map, A k hk]
      rfl
    · intro k hk v hv
      rw [hfst]
      exact B k hk v hv
    · intro q hq hqd
      rw [hfst]
      exact C q hq hqd

/-- Witness for C1: a conflicting and a conflict-free directory rename on
concrete stores. -/
theorem c1_rename_dir_atomic_witness :
    ((rename ⟨"memory", none⟩
        [⟨"memory:/memories/d/a", "1", none⟩, ⟨"memory:/memories/e/a", "3", none⟩]
        "/memories/d" "/memories/e").1 =
      [⟨"memory:/memories/d/a", "1", none⟩, ⟨"memory:/memories/e/a", "3", none⟩]) ∧
    (rename ⟨"memory", none⟩
        [⟨"memory:/memories/d/a", "1", none⟩, ⟨"memory:/memories/e/a", "3", none⟩]
        "/memories/d" "/memories/e").2 =
      Except.error "Destination already exists: /memories/e/a" ∧
    (rename ⟨"memory", none⟩ [⟨"memory:/memories/d/a", "1", none⟩]
        "/memories/d" "/memories/e").2 =
      Except.ok ("Renamed " ++ "/memories/d" ++ " to " ++ "/memories/e") ∧
    redisGet (rename ⟨"memory", none⟩ [⟨"memory:/memories/d/a", "1", none⟩]
        "/memories/d" "/memories/e").1 "memory:/memories/d/a" = none ∧
    lookup (rename ⟨"memory", none⟩ [⟨"memory:/memories/d/a", "1", none⟩]
        "/memories/d" "/memories/e").1
        (mappedDest "memory:/memories/d" "memory:/memories/e" "memory:/memories/d/a") =
      some ⟨mappedDest "memory:/memories/d" "memory:/memories/e" "memory:/memories/d/a",
        "1", ttlMark ⟨"memory", none⟩⟩ := by
  have hconfl := (c1_rename_dir_atomic.1 ⟨"memory", none⟩
    [⟨"memory:/memories/d/a", "1", none⟩, ⟨"memory:/memories/e/a", "3", none⟩]
    "/memories/d" "/memories/e" "memory:/memories/d" "memory:/memories/e"
    rfl rfl rfl (by decide) ⟨"memory:/memories/d/a", by decide, by decide⟩)
  have hsucc := (c1_rename_dir_atomic.2 ⟨"memory", none⟩
    [⟨"memory:/memories/d/a", "1", none⟩]
    "/memories/d" "/memories/e" "memory:/memories/d" "memory:/memories/e"
    (by simp [StoreWF]) rfl rfl rfl (by decide) (by decide))
  refine ⟨hconfl.1, rfl, hsucc.1, ?_, ?_⟩
  · exact hsucc.2.1 "memory:/memories/d/a" (by decide)
  · exact hsucc.2.2.1 "memory:/memories/d/a" (by decide) "1" rfl

/-- C9: every successful write (`create`, `str_replace`, `insert`, and the
destination write of `rename`) leaves the TTL mark of the configuration on
the written key — the configured TTL when one is set and non-zero, no
expiration otherwise; a `view` that returns file content refreshes that
key's expiration to the configured TTL; a `view` of a directory or of the
root (which performs only existence checks and listing traversal) leaves the
store completely unchanged, as does the existence check of a failing
`create`; and with no TTL configured every operation preserves the
no-expiration state of the whole store. -/
theorem c9_ttl_behavior :
    (∀ (cfg : Config) (s : Store) (p t key : String),
      pathToKey cfg p = Except.ok key → redisExists s key = false →
      lookup (create cfg s p t).1 key = some ⟨key, t, ttlMark cfg⟩) ∧
    (∀ (cfg : Config) (s : Store) (p o n key content : String),
      pathToKey cfg p = Except.ok key → redisGet s key = some content →
      strReplaceCount content o = 1 →
      lookup (str_replace cfg s p o n).1 key =
        some ⟨key, jsReplace content o n, ttlMark cfg⟩) ∧
    (∀ (cfg : Config) (s : Store) (p text key content : String) (i : Int),
      pathToKey cfg p = Except.ok key → redisGet s key = some content →
      0 ≤ i → i ≤ ((linesOf content).length : Int) →
      lookup (insert cfg s p i text).1 key =
        some ⟨key, joinWith "\n" ((linesOf content).take i.toNat ++
          [stripTrailingNl text] ++ (linesOf content).drop i.toNat), ttlMark cfg⟩) ∧
    (∀ (cfg : Config) (s : Store) (oldPath newPath oldKey newKey content : String),
      pathToKey cfg oldPath = Except.ok oldKey →
      pathToKey cfg newPath = Except.ok newKey →
      redisGet s oldKey = some content → redisExists s newKey = false →
      lookup (rename cfg s oldPath newPath).1 newKey =
        some ⟨newKey, content, ttlMark cfg⟩ ∧
      redisGet (rename cfg s oldPath newPath).1 oldKey = none) ∧
    (∀ (cfg : Config) (t0 : Nat), cfg.ttl = some t0 → t0 ≠ 0 → ttlMark cfg = some t0) ∧
    (∀ (cfg : Config) (s : Store) (p key content : String) (r : Option (List Int)) (t0 : Nat),
      p ≠ "/memories" → pathToKey cfg p = Except.ok key →
      redisGet s key = some content → cfg.ttl = some t0 → t0 ≠ 0 →
      lookup (view cfg s p r).1 key = some ⟨key, content, some t0⟩) ∧
    (∀ (cfg : Config) (s : Store) (p key : String) (r : Option (List Int)),
      p ≠ "/memories" → pathToKey cfg p = Except.ok key → redisGet s key = none →
      (view cfg s p r).1 = s) ∧
    (∀ (cfg : Config) (s : Store) (r : Option (List Int)),
      (view cfg s "/memories" r).1 = s) ∧
    (∀ (cfg : Config) (s : Store) (p t key : String),
      pathToKey cfg p = Except.ok key → redisExists s key = true →
      (create cfg s p t).1 = s) ∧
    (∀ cfg : Config, cfg.ttl = none → ttlMark cfg = none) ∧
    (∀ (cfg : Config) (s : Store) (p t : String), cfg.ttl = none →
      (∀ e ∈ s, e.ttl = none) → ∀ e ∈ (create cfg s p t).1, e.ttl = none) ∧
    (∀ (cfg : Config) (s : Store) (p o n : String), cfg.ttl = none →
      (∀ e ∈ s, e.ttl = none) → ∀ e ∈ (str_replace cfg s p o n).1, e.ttl = none) ∧
    (∀ (cfg : Config) (s : Store) (p text : String) (i : Int), cfg.ttl = none →
      (∀ e ∈ s, e.ttl = none) → ∀ e ∈ (insert cfg s p i text).1, e.ttl = none) ∧
    (∀ (cfg : Config) (s : Store) (p : String),
      (∀ e ∈ s, e.ttl = none) → ∀ e ∈ (delete cfg s p).1, e.ttl = none) ∧
    (∀ (cfg : Config) (s : Store) (a b : String), cfg.ttl = none →
      (∀ e ∈ s, e.ttl = none) → ∀ e ∈ (rename cfg s a b).1, e.ttl = none) ∧
    (∀ (cfg : Config) (s : Store) (p : String) (r : Option (List Int)), cfg.ttl = none →
      (view cfg s p r).1 = s) := by
  refine ⟨?_, ?_, ?_, ?_, ?_, ?_, ?_, ?_, ?_, ?_, ?_, ?_, ?_, ?_, ?_, ?_⟩
  · intro cfg s p t key hk hex
    have hfst : (create cfg s p t).1 = setWithTtl cfg s key t := by
      rw [create_ok hk hex]
    rw [hfst, lookup_setWithTtl_self]
  · intro cfg s p o n key content hk hc h1
    have hfst : (str_replace cfg s p o n).1 =
        setWithTtl cfg s key (jsReplace content o n) := by
      rw [@str_replace_one_eq cfg s p o n key content hk hc h1]
    rw [hfst, lookup_setWithTtl_self]
  · intro cfg s p text key content i hk hc h0 h1
    have hfst : (insert cfg s p i text).1 = setWithTtl cfg s key
        (joinWith "\n" ((linesOf content).take i.toNat ++ [stripTrailingNl text] ++
          (linesOf content).drop i.toNat)) := by
      rw [insert_ok_eq hk hc h0 h1]
    rw [hfst, lookup_setWithTtl_self]
  · intro cfg s oldPath newPath oldKey newKey content hok hnk hg hex
    have hfst : (rename cfg s oldPath newPath).1 =
        redisDel (setWithTtl cfg s newKey content) oldKey := by
      rw [rename_file_eq hok hnk hg hex]
    have hne : newKey ≠ oldKey := by
      intro heq
      rw [redisExists_false_iff] at hex
      rw [redisGet_eq_map] at hg
      rw [heq] at hex
      rw [hex] at hg
      exact absurd hg (by simp)
    constructor
    · rw [hfst, lookup_redisDel_ne _ hne, lookup_setWithTtl_self]
    · rw [hfst, redisGet_eq_map, lookup_redisDel_self]
      rfl
  · intro cfg t0 ht hne
    unfold ttlMark
    rw [ht]
    simp [hne]
  · intro cfg s p key content r t0 hroot hk hc ht hne
    rw [view_file_fst hroot hk hc r]
    have hrt : refreshTtl cfg s key = redisExpire s key t0 := by
      unfold refreshTtl
      rw [ht]
      simp [hne]
    rw [hrt, lookup_redisExpire_self]
    rw [redisGet_eq_map] at hc
    obtain ⟨e, he, hev⟩ := Option.map_eq_some'.1 hc
    have hek := lookup_key_of_some he
    rw [he]
    cases e with
    | mk k' v' tl =>
      simp only at hek hev
      rw [hek, hev]
      rfl
  · intro cfg s p key r hroot hk hg
    exact view_dir_fst hroot hk hg r
  · intro cfg s r
    exact view_root_fst cfg s r
  · intro cfg s p t key hk hex
    rw [create_err hk hex]
  · intro cfg hn
    exact ttlNone_mark hn
  · intro cfg s p t hn h
    exact ttlNone_create hn h
  · intro cfg s p o n hn h
    exact ttlNone_str_replace hn h
  · intro cfg s p text i hn h
    exact ttlNone_insert hn h
  · intro cfg s p h
    exact ttlNone_delete h
  · intro cfg s a b hn h
    exact ttlNone_rename hn h
  · intro cfg s p r hn
    exact view_fst_no_ttl cfg s p r hn

/-- Witness for C9 with a configured TTL of 60 seconds and with no TTL. -/
theorem c9_ttl_behavior_witness :
    lookup (create ⟨"memory", some 60⟩ [] "/memories/f" "hi").1 "memory:/memories/f" =
      some ⟨"memory:/memories/f", "hi", ttlMark ⟨"memory", some 60⟩⟩ ∧
    ttlMark ⟨"memory", some 60⟩ = some 60 ∧
    lookup (view ⟨"memory", some 60⟩ [⟨"memory:/memories/f", "hi", none⟩]
        "/memories/f" none).1 "memory:/memories/f" =
      some ⟨"memory:/memories/f", "hi", some 60⟩ ∧
    (view ⟨"memory", some 60⟩ [⟨"memory:/memories/f", "hi", none⟩] "/memories" none).1 =
      [⟨"memory:/memories/f", "hi", none⟩] ∧
    lookup (create ⟨"memory", none⟩ [] "/memories/f" "hi").1 "memory:/memories/f" =
      some ⟨"memory:/memories/f", "hi", ttlMark ⟨"memory", none⟩⟩ ∧
    ttlMark ⟨"memory", none⟩ = none := by
  refine ⟨?_, ?_, ?_, ?_, ?_, ?_⟩
  · exact c9_ttl_behavior.1 ⟨"memory", some 60⟩ [] "/memories/f" "hi"
      "memory:/memories/f" rfl rfl
  · exact c9_ttl_behavior.2.2.2.2.1 ⟨"memory", some 60⟩ 60 rfl (by decide)
  · exact c9_ttl_behavior.2.2.2.2.2.1 ⟨"memory", some 60⟩
      [⟨"memory:/memories/f", "hi", none⟩] "/memories/f" "memory:/memories/f" "hi"
      none 60 (by decide) rfl rfl rfl (by decide)
  · exact c9_ttl_behavior.2.2.2.2.2.2.2.1 ⟨"memory", some 60⟩
      [⟨"memory:/memories/f", "hi", none⟩] none
  · exact c9_ttl_behavior.1 ⟨"memory", none⟩ [] "/memories/f" "hi"
      "memory:/memories/f" rfl rfl
  · exact c9_ttl_behavior.2.2.2.2.2.2.2.2.2.1 ⟨"memory", none⟩ rfl

end RedisMemoryTool
